import Mathlib

/-!
Verification of icingadb: cleanup statements and the retention loop, the SLA projection,
the connection hooks, the start-up order of a sync iteration, and the JSON bridge of
`types.String`.

A shallow embedding of the functions of

* `pkg/icingadb/cleanup.go`  (`CleanupStmt.Build`, `DB.CleanupOlderThan`),
* `pkg/icingadb/driver.go`   (`MySQL`, `PostgreSQL`, the hooks of `RetryConnector.Connect`),
* `pkg/icingadb/history/sla.go` (`stateHistoryToSlaEntity`),
* `cmd/icingadb/main.go`     (the body of one sync iteration),
* `pkg/types/string.go`      (`String.MarshalJSON`, `String.UnmarshalJSON`),

together with the parts of the Go standard library they call (`fmt.Sprintf`,
`encoding/json` on strings, `unicode/utf8`), followed by the theorems about them.

Go `uint64`/`int64` values are natural numbers and integers with the conversions written
out; a byte is a natural number below 256 and a Go `string` or `[]byte` a list of bytes
(identifiers of SQL statements are Lean strings); a Go panic is an explicit failure value;
a loop that may run for ever takes a round budget and yields `none` when the budget is
used up.
-/

deriving instance DecidableEq for Except

namespace Icingadb

/-! ## `fmt.Sprintf` (the fragment used by this package) -/

/-- An operand of `fmt.Sprintf`: a Go `string` or a Go `uint64`. -/
inductive Arg where
  | str (s : String)
  | uint64 (n : Nat)

/-- Where the scan of a format string stands: in plain text, right after a `%`
(or after an argument index) waiting for the verb, or between `[` and `]`. -/
inductive FmtState where
  | text
  | verb (good afterIndex : Bool)
  | index (num : Nat) (seen bad : Bool)

/-- The rendering `%!verb(type=value)` of an operand under a verb that does not fit it. -/
def badVerb (verb : Char) (ty : String) (val : List Char) : List Char :=
  '%' :: '!' :: verb :: '(' :: (ty.data ++ '=' :: (val ++ [')']))

/-- The `printArg` of package fmt for the verbs `%s`, `%d` and `%v`: a string is copied as
it is, a `uint64` is written in decimal; any other pairing is rendered as a bad verb. -/
def printArg (verb : Char) : Arg → List Char
  | .str s => if verb = 's' ∨ verb = 'v' then s.data else badVerb verb "string" s.data
  | .uint64 n =>
    if verb = 'd' ∨ verb = 'v' then (Nat.repr n).data else badVerb verb "uint64" (Nat.repr n).data

/-- The operands listed inside `%!(EXTRA ...)`. -/
def extraArgs : List Arg → List Char
  | [] => []
  | [.str s] => "string=".data ++ s.data
  | [.uint64 n] => "uint64=".data ++ (Nat.repr n).data
  | .str s :: as => "string=".data ++ s.data ++ ", ".data ++ extraArgs as
  | .uint64 n :: as => "uint64=".data ++ (Nat.repr n).data ++ ", ".data ++ extraArgs as

/-- The check for unused operands at the end of `doPrintf`: skipped once an explicit
argument index has been used. -/
def extraString (a : List Arg) (argNum : Nat) (reordered : Bool) : List Char :=
  if reordered = false ∧ argNum < a.length then
    "%!(EXTRA ".data ++ extraArgs (a.drop argNum) ++ [')']
  else []

/-- The format loop of package fmt (`doPrintf`) for formats made of plain text, `%%`
and verbs with an optional explicit argument index `%[n]`; flags, width and precision
are not part of the fragment.  `argNum` is the next operand, `reordered` records that an
index was used. -/
def doPrintf (a : List Arg) : FmtState → Nat → Bool → List Char → List Char
  | .text, argNum, reordered, [] => extraString a argNum reordered
  | .text, argNum, reordered, c :: cs =>
    if c = '%' then doPrintf a (.verb true false) argNum reordered cs
    else c :: doPrintf a .text argNum reordered cs
  | .verb _ _, argNum, reordered, [] => "%!(NOVERB)".data ++ extraString a argNum reordered
  | .verb good afterIndex, argNum, reordered, c :: cs =>
    if c = '[' ∧ afterIndex = false then
      if ']' ∈ cs ∧ 2 ≤ cs.length then doPrintf a (.index 0 false false) argNum true cs
      else doPrintf a (.verb false false) argNum true cs
    else if c = '%' then '%' :: doPrintf a .text argNum reordered cs
    else if good = false then
      '%' :: '!' :: c :: ("(BADINDEX)".data ++ doPrintf a .text argNum reordered cs)
    else
      match a.get? argNum with
      | none => '%' :: '!' :: c :: ("(MISSING)".data ++ doPrintf a .text argNum reordered cs)
      | some arg => printArg c arg ++ doPrintf a .text (argNum + 1) reordered cs
  | .index _ _ _, argNum, reordered, [] => extraString a argNum reordered
  | .index num seen bad, argNum, reordered, c :: cs =>
    if c = ']' then
      if seen = true ∧ bad = false then
        if 1 ≤ num ∧ num ≤ a.length then doPrintf a (.verb true true) (num - 1) reordered cs
        else doPrintf a (.verb false true) argNum reordered cs
      else doPrintf a (.verb false false) argNum reordered cs
    else if c.isDigit ∧ bad = false then
      doPrintf a (.index (num * 10 + (c.toNat - '0'.toNat)) true
        (decide (1000000 < num * 10 + (c.toNat - '0'.toNat)))) argNum reordered cs
    else doPrintf a (.index num seen true) argNum reordered cs

/-- The function `fmt.Sprintf(format, a...)`. -/
def Sprintf (format : String) (a : List Arg) : String :=
  String.mk (doPrintf a .text 0 false format.data)

/-! ## `pkg/icingadb/driver.go`: driver names -/

/-- Driver name `MySQL` as registered in `database/sql`. -/
def MySQL : String := "mysql"

/-- Driver name `PostgreSQL` as registered in `database/sql`. -/
def PostgreSQL : String := "postgres"

/-! ## `pkg/icingadb/cleanup.go`: `CleanupStmt.Build` -/

/-- The struct `CleanupStmt`: information needed to compose cleanup statements. -/
structure CleanupStmt where
  Table : String
  PK : String
  Column : String

/-- The method `CleanupStmt.Build`: the cleanup statement for the given driver and limit.
`Except.error msg` is the Go panic with value `msg`. -/
def CleanupStmt.Build (stmt : CleanupStmt) (driverName : String) (limit : Nat) :
    Except String String :=
  if driverName = MySQL then
    .ok (Sprintf
      "DELETE FROM %[1]s WHERE environment_id = :environment_id AND %[2]s < :time\nORDER BY %[2]s LIMIT %[3]d"
      [.str stmt.Table, .str stmt.Column, .uint64 limit])
  else if driverName = PostgreSQL then
    .ok (Sprintf
      "WITH rows AS (\nSELECT %[1]s FROM %[2]s WHERE environment_id = :environment_id AND %[3]s < :time ORDER BY %[3]s LIMIT %[4]d\n)\nDELETE FROM %[2]s WHERE %[1]s IN (SELECT %[1]s FROM rows)"
      [.str stmt.PK, .str stmt.Table, .str stmt.Column, .uint64 limit])
  else
    .error (Sprintf "invalid database type %s" [.str driverName])

end Icingadb

namespace Icingadb

/-! ## `pkg/icingadb/cleanup.go`: `DB.CleanupOlderThan` -/

/-- A row of a table that the cleanup statement addresses: its primary key, its
`environment_id` and the value of its time column (milliseconds since the epoch). -/
structure Row where
  pk : Nat
  environment_id : List Nat
  time : Int
deriving DecidableEq, Repr

/-- The contents of the table named by a `CleanupStmt`. -/
abbrev Table := List Row

/-- The struct `cleanupWhere`: the named parameters `:environment_id` and `:time`. -/
structure cleanupWhere where
  EnvironmentId : List Nat
  Time : Int
deriving DecidableEq, Repr

/-- The database handle `*DB` as far as `CleanupOlderThan` uses it.  `NamedExecContext`
stands for one execution of the query under `retry.WithBackoff`: it yields the error the
retry gave up with, or the table after the statement together with `RowsAffected`
(an `int64`). -/
structure DB where
  DriverName : String
  Rebind : String → String
  NamedExecContext : String → cleanupWhere → Table → Except String (Table × Int)

/-- An `OnSuccess[struct{}]` callback: it is handed a slice of the given length and returns
an error or nil. -/
abbrev OnSuccess := Nat → Option String

/-- The Go conversion `int64(n)` of a `uint64` value. -/
def int64 (n : Nat) : Int :=
  if n % 2 ^ 64 < 2 ^ 63 then ((n % 2 ^ 64 : Nat) : Int) else ((n % 2 ^ 64 : Nat) : Int) - 2 ^ 64

/-- The Go conversion `uint64(i)` of an `int64` value. -/
def uint64 (i : Int) : Nat :=
  (i % 2 ^ 64).toNat

/-- How a call of `CleanupOlderThan` ends: `return counter.Total(), nil`, `return 0, err`, or a
panic. -/
inductive Outcome where
  | ok (total : Nat)
  | error (err : String)
  | panic (msg : String)
deriving DecidableEq, Repr

/-- A finished call of `CleanupOlderThan`: the table it leaves behind, the `rowsDeleted` of
every round it executed (in order), and how it ended. -/
structure CleanupRun where
  table : Table
  rounds : List Int
  outcome : Outcome
deriving DecidableEq, Repr

/-- The loop `for _, onSuccess := range onSuccess` of one round; `make([]struct{}, rowsDeleted)`
panics for a negative length. -/
def runOnSuccess (rowsDeleted : Int) : List OnSuccess → Option Outcome
  | [] => none
  | onSuccess :: rest =>
    if rowsDeleted < 0 then some (.panic "makeslice: len out of range")
    else
      match onSuccess rowsDeleted.toNat with
      | some err => some (.error err)
      | none => runOnSuccess rowsDeleted rest

/-- The `for` loop of `CleanupOlderThan`.  The first argument bounds the number of rounds;
`none` means the loop is still running when the bound is reached.  `counter` is the
`com.Counter` (a `uint64`), `rounds` the rounds executed so far. -/
def cleanupLoop (db : DB) (q : String) (w : cleanupWhere) (count : Nat)
    (onSuccess : List OnSuccess) : Nat → Table → Nat → List Int → Option CleanupRun
  | 0, _, _, _ => none
  | fuel + 1, table, counter, rounds =>
    match db.NamedExecContext q w table with
    | .error err => some ⟨table, rounds, .error err⟩
    | .ok (table', rowsDeleted) =>
      match runOnSuccess rowsDeleted onSuccess with
      | some failure => some ⟨table', rounds ++ [rowsDeleted], failure⟩
      | none =>
        if rowsDeleted < int64 count then
          some ⟨table', rounds ++ [rowsDeleted], .ok ((counter + uint64 rowsDeleted) % 2 ^ 64)⟩
        else
          cleanupLoop db q w count onSuccess fuel table'
            ((counter + uint64 rowsDeleted) % 2 ^ 64) (rounds ++ [rowsDeleted])

/-- The method `DB.CleanupOlderThan`, run on the table `table` with a bound on the number of
rounds.  `olderThan` is the horizon as `types.UnixMilli`. -/
def DB.CleanupOlderThan (db : DB) (stmt : CleanupStmt) (envId : List Nat) (count : Nat)
    (olderThan : Int) (onSuccess : List OnSuccess) (fuel : Nat) (table : Table) :
    Option CleanupRun :=
  match stmt.Build db.DriverName count with
  | .error msg => some ⟨table, [], .panic msg⟩
  | .ok text => cleanupLoop db (db.Rebind text) ⟨envId, olderThan⟩ count onSuccess fuel table 0 []

/-! ### The rows a cleanup statement addresses, and a database that executes it -/

/-- The `WHERE` clause `environment_id = :environment_id AND <Column> < :time`. -/
def older (w : cleanupWhere) (r : Row) : Bool :=
  decide (r.environment_id = w.EnvironmentId) && decide (r.time < w.Time)

/-- The rows of the table the `WHERE` clause selects. -/
def olderRows (w : cleanupWhere) (table : Table) : List Row :=
  table.filter (older w)

/-- The first row in `ORDER BY <Column>` among the selected rows, if there is one. -/
def oldest (w : cleanupWhere) : Table → Option Row
  | [] => none
  | r :: rs =>
    if older w r then
      match oldest w rs with
      | some r' => if r'.time < r.time then some r' else some r
      | none => some r
    else oldest w rs

/-- The statement `DELETE ... ORDER BY <Column> LIMIT limit` executed on a table: the rows
left and the number of rows deleted. -/
def deleteOldest (w : cleanupWhere) : Nat → Table → Table × Nat
  | 0, table => (table, 0)
  | limit + 1, table =>
    match oldest w table with
    | none => (table, 0)
    | some r => ((deleteOldest w limit (table.erase r)).1, (deleteOldest w limit (table.erase r)).2 + 1)

/-- A database on which every cleanup statement with the given limit succeeds at once. -/
def sqlDB (driverName : String) (limit : Nat) : DB where
  DriverName := driverName
  Rebind := id
  NamedExecContext := fun _ w table =>
    .ok ((deleteOldest w limit table).1, ((deleteOldest w limit table).2 : Int))

/-- Every execution of the query succeeds and removes `min count m` of the `m` selected
rows, reporting that number as `RowsAffected`. -/
def DeletesBatch (db : DB) (q : String) (w : cleanupWhere) (count : Nat) : Prop :=
  ∀ table : Table, ∃ table' : Table,
    db.NamedExecContext q w table
      = .ok (table', ((min count (olderRows w table).length : Nat) : Int))
    ∧ (olderRows w table').length
      = (olderRows w table).length - min count (olderRows w table).length

end Icingadb

namespace History

/-! ## `pkg/icingadb/history/sla.go`: `stateHistoryToSlaEntity` -/

/-- The struct `redis.XMessage`: a stream message with its id and its field/value pairs. -/
structure XMessage where
  ID : String
  Values : List (String × String)
deriving DecidableEq, Repr

/-- The struct `history.SlaHistoryState` as far as this file reads it: the `StateType` and
the remaining columns, which the function only passes on. -/
structure SlaHistoryState where
  StateType : Nat
  columns : List (String × String)
deriving DecidableEq, Repr

/-- The function `stateHistoryToSlaEntity`.  `slaStateStructify` is the structifier made by
`structify.MakeMapStructifier` for `SlaHistoryState`, `HardState` the constant
`common.HardState`; the result is the returned slice (`nil` is the empty list) or the
returned error. -/
def stateHistoryToSlaEntity
    (slaStateStructify : List (String × String) → Except String SlaHistoryState)
    (HardState : Nat) (entry : XMessage) : Except String (List SlaHistoryState) :=
  match slaStateStructify entry.Values with
  | .error err => .error err
  | .ok slaState =>
    if slaState.StateType ≠ HardState then
      -- only hard state changes are relevant for SLA history, discard all others
      .ok []
    else
      .ok [slaState]

/-- A structifier for the witness: it reads the field `state_type` ("0" soft, "1" hard) and
keeps all fields as columns; a message without a readable `state_type` is an error. -/
def readStateType (values : List (String × String)) : Except String SlaHistoryState :=
  match values.lookup "state_type" with
  | some "0" => .ok ⟨0, values⟩
  | some "1" => .ok ⟨1, values⟩
  | _ => .error "can't structify map by field state_type"

end History

namespace Icingadb

/-! ## `pkg/icingadb/driver.go`: the hooks of `RetryConnector.Connect` -/

/-- What a hook of `RetryConnector.Connect` does: it sets the telemetry error
(`telemetry.UpdateCurrentDbConnErr`), logs a warning with the error attached, or logs an
info line with the fields `after` and `attempts`.  An error is represented by its message
(`err.Error()`), a nil error by `none`. -/
inductive Effect where
  | telemetry (err : Option String)
  | warn (msg : String) (err : String)
  | info (msg : String) (after : Nat) (attempts : Nat)
deriving DecidableEq, Repr

/-- The hook `OnRetryableError` of the `retry.Settings` in `RetryConnector.Connect`. -/
def OnRetryableError (_elapsed : Nat) (_attempt : Nat) (err : String) (lastErr : Option String) :
    List Effect :=
  .telemetry (some err) ::
    (match lastErr with
     | none => [.warn "Can't connect to database. Retrying" err]
     | some last =>
       if err ≠ last then [.warn "Can't connect to database. Retrying" err] else [])

/-- The hook `OnSuccess` of the `retry.Settings` in `RetryConnector.Connect`. -/
def OnSuccess.hook (elapsed : Nat) (attempt : Nat) (_lastErr : Option String) : List Effect :=
  .telemetry none ::
    (if attempt > 1 then [.info "Reconnected to database" elapsed attempt] else [])

/-- Modelled from the spec: `retry.WithBackoff` of `pkg/retry`, which is not under `src/`, as
far as it calls the hooks ("two observer hooks: on every retryable error ..., and once on
eventual success").  `errs` are the retryable errors of the failed attempts in order,
`clock k` the time elapsed at attempt `k`; attempts are numbered from 1 and each call of
`OnRetryableError` gets the error of the attempt before as `lastErr`.  The result lists
what each hook call did. -/
def hookCalls (clock : Nat → Nat) : Nat → Option String → List String → List (List Effect)
  | attempt, lastErr, [] => [OnSuccess.hook (clock attempt) attempt lastErr]
  | attempt, lastErr, err :: rest =>
    OnRetryableError (clock attempt) attempt err lastErr
      :: hookCalls clock (attempt + 1) (some err) rest

/-- The error that `telemetry.UpdateCurrentDbConnErr` was called with last among the effects
(`none` is a call with nil), or `current`, the error of the last call before them, if the
effects hold no such call. -/
def lastTelemetry (current : Option String) : List Effect → Option String
  | [] => current
  | .telemetry err :: rest => lastTelemetry err rest
  | .warn _ _ :: rest => lastTelemetry current rest
  | .info _ _ _ :: rest => lastTelemetry current rest

/-- The error seen before the `k`-th error of a connect attempt sequence. -/
def errBefore (lastErr : Option String) (errs : List String) : Nat → Option String
  | 0 => lastErr
  | k + 1 => errs.get? k

/-- The hook calls of one `RetryConnector.Connect` that sees the retryable errors `errs`
and then succeeds. -/
def Connect.hooks (clock : Nat → Nat) (errs : List String) : List (List Effect) :=
  hookCalls clock 1 none errs

end Icingadb

namespace Main

/-! ## `cmd/icingadb/main.go`: one sync iteration after a Takeover -/

/-- What the goroutine started on a Takeover does, in program order: the calls it makes
and the tasks it hands to the error group with `g.Go`. -/
inductive Event where
  | NewDumpSignals
  | GoDumpListen
  | StreamLastId (stream : String) (result : Except String String)
  | GoDumpInProgress
  | GoHistorySync
  | GoRuntimeSync (lastRuntimeStreamId : String)
  | GoSyncAfterDump (factory : String)
  | Wait
  | Panic (err : String)
deriving DecidableEq, Repr

/-- The body of the loop `for hactx.Err() == nil` in the Takeover goroutine.
`StreamLastId` answers as the stream store does during this iteration, `Factories` are the
entity factories `v1.Factories` (by name), `waitErr` is the error `g.Wait()` returns if it is
not a context cancellation.  The result is the trace and whether the iteration panicked. -/
def syncIteration (StreamLastId : String → Except String String) (Factories : List String)
    (waitErr : Option String) : List Event × Bool :=
  match StreamLastId "icinga:runtime" with
  | .error err =>
    ([.NewDumpSignals, .GoDumpListen, .StreamLastId "icinga:runtime" (.error err), .Panic err],
      true)
  | .ok lastRuntimeStreamId =>
    let trace :=
      [.NewDumpSignals, .GoDumpListen, .StreamLastId "icinga:runtime" (.ok lastRuntimeStreamId),
        .GoDumpInProgress, .GoHistorySync, .GoRuntimeSync lastRuntimeStreamId]
      ++ Factories.map .GoSyncAfterDump ++ [.Wait]
    match waitErr with
    | some err => (trace ++ [.Panic err], true)
    | none => (trace, false)

/-- The loop `for hactx.Err() == nil` of the Takeover goroutine, for `n` iterations during
which `hactx` stays alive, starting with iteration number `k`.  `rc k` is the stream store
as iteration `k` finds it, `waitErr k` the outcome of its `g.Wait()`.  A panic ends the
loop.  The result is the trace of every iteration that was started. -/
def syncLoop (rc : Nat → String → Except String String) (Factories : List String)
    (waitErr : Nat → Option String) : Nat → Nat → List (List Event)
  | 0, _ => []
  | n + 1, k =>
    (syncIteration (rc k) Factories (waitErr k)).1 ::
      (if (syncIteration (rc k) Factories (waitErr k)).2 then []
       else syncLoop rc Factories waitErr n (k + 1))

/-- The event is the start of the runtime-update task or of an initial-sync task. -/
def Event.startsSync : Event → Bool
  | .GoRuntimeSync _ => true
  | .GoSyncAfterDump _ => true
  | _ => false

end Main

namespace Utf8

/-! ## Package `unicode/utf8` and `unicode/utf16` (Go standard library)

A byte is a natural number below 256, a Go `string` or `[]byte` a list of bytes, a rune
a natural number.  The masks and shifts of the Go code are written as `%`, `/` and `*`. -/

/-- The rune `utf8.RuneError` (U+FFFD). -/
def RuneError : Nat := 0xFFFD

/-- The table `first`: information about the first byte of a UTF-8 sequence (`as` = 0xF0
for ASCII, `xx` = 0xF1 for an invalid byte, otherwise accept-range index and size). -/
def first (p0 : Nat) : Nat :=
  if p0 < 0x80 then 0xF0
  else if p0 < 0xC2 then 0xF1
  else if p0 ≤ 0xDF then 0x02
  else if p0 = 0xE0 then 0x13
  else if p0 ≤ 0xEC then 0x03
  else if p0 = 0xED then 0x23
  else if p0 ≤ 0xEF then 0x03
  else if p0 = 0xF0 then 0x34
  else if p0 ≤ 0xF3 then 0x04
  else if p0 = 0xF4 then 0x44
  else 0xF1

/-- The table `acceptRanges`: the range of valid second bytes, as `(lo, hi)`. -/
def acceptRanges (i : Nat) : Nat × Nat :=
  if i = 0 then (0x80, 0xBF)
  else if i = 1 then (0xA0, 0xBF)
  else if i = 2 then (0x80, 0x9F)
  else if i = 3 then (0x90, 0xBF)
  else if i = 4 then (0x80, 0x8F)
  else (0, 0)

/-- The function `utf8.DecodeRune`: the first rune of `p` and its width in bytes;
`(RuneError, 0)` for empty input and `(RuneError, 1)` for an encoding error. -/
def DecodeRune (p : List Nat) : Nat × Nat :=
  match p with
  | [] => (RuneError, 0)
  | p0 :: rest =>
    if first p0 ≥ 0xF0 then
      if first p0 = 0xF0 then (p0, 1) else (RuneError, 1)
    else if rest.length + 1 < first p0 % 8 then (RuneError, 1)
    else
      match rest with
      | [] => (RuneError, 1)
      | b1 :: rest1 =>
        if b1 < (acceptRanges (first p0 / 16)).1 ∨ (acceptRanges (first p0 / 16)).2 < b1 then
          (RuneError, 1)
        else if first p0 % 8 ≤ 2 then (p0 % 32 * 64 + b1 % 64, 2)
        else
          match rest1 with
          | [] => (RuneError, 1)
          | b2 :: rest2 =>
            if b2 < 0x80 ∨ 0xBF < b2 then (RuneError, 1)
            else if first p0 % 8 ≤ 3 then (p0 % 16 * 4096 + b1 % 64 * 64 + b2 % 64, 3)
            else
              match rest2 with
              | [] => (RuneError, 1)
              | b3 :: _ =>
                if b3 < 0x80 ∨ 0xBF < b3 then (RuneError, 1)
                else (p0 % 8 * 262144 + b1 % 64 * 4096 + b2 % 64 * 64 + b3 % 64, 4)

/-- The function `utf8.AppendRune` on an empty buffer (`utf8.EncodeRune`): the UTF-8 encoding
of the rune; a surrogate or a rune beyond U+10FFFF is encoded as `RuneError`. -/
def EncodeRune (r : Nat) : List Nat :=
  if r ≤ 0x7F then [r]
  else if r ≤ 0x7FF then [0xC0 + r / 64, 0x80 + r % 64]
  else if r > 0x10FFFF ∨ (0xD800 ≤ r ∧ r ≤ 0xDFFF) then [0xEF, 0xBF, 0xBD]
  else if r ≤ 0xFFFF then [0xE0 + r / 4096, 0x80 + r / 64 % 64, 0x80 + r % 64]
  else [0xF0 + r / 262144, 0x80 + r / 4096 % 64, 0x80 + r / 64 % 64, 0x80 + r % 64]

/-- The loop of `utf8.Valid`: `skip` bytes belong to the rune decoded last; no rune of the
text is an encoding error. -/
def validFrom : Nat → List Nat → Bool
  | _, [] => true
  | skip + 1, _ :: rest => validFrom skip rest
  | 0, p0 :: rest =>
    if (DecodeRune (p0 :: rest)).1 = RuneError ∧ (DecodeRune (p0 :: rest)).2 = 1 then false
    else validFrom ((DecodeRune (p0 :: rest)).2 - 1) rest

/-- The function `utf8.Valid`: the bytes are entirely valid UTF-8-encoded runes. -/
def Valid (p : List Nat) : Bool :=
  validFrom 0 p

/-- The function `utf16.IsSurrogate`. -/
def IsSurrogate (r : Nat) : Bool :=
  decide (0xD800 ≤ r ∧ r < 0xE000)

/-- The function `utf16.DecodeRune`: the rune of a surrogate pair, U+FFFD if the pair is
not valid. -/
def DecodeSurrogates (r1 r2 : Nat) : Nat :=
  if 0xD800 ≤ r1 ∧ r1 < 0xDC00 ∧ 0xDC00 ≤ r2 ∧ r2 < 0xE000 then
    (r1 - 0xD800) * 1024 + (r2 - 0xDC00) + 0x10000
  else 0xFFFD

end Utf8

namespace Json

/-! ## Package `encoding/json` (Go standard library): strings and `null`

`Marshal` for a `nil` interface and for a `string`, and `Unmarshal` into a `*string`. -/

/-- A Go `error`, by its message. -/
abbrev Error := String

/-- The text of a literal as bytes (ASCII). -/
def ascii (s : String) : List Nat :=
  s.data.map Char.toNat

/-- The table `hex` ("0123456789abcdef"). -/
def hex (n : Nat) : Nat :=
  if n < 10 then 0x30 + n else 0x61 + (n - 10)

/-- The table `htmlSafeSet`: the ASCII bytes that need no escape in a JSON string embedded in
HTML, that is all from space on except `"`, `\`, `<`, `>` and `&`. -/
def htmlSafeSet (b : Nat) : Bool :=
  decide (0x20 ≤ b ∧ b < 0x80 ∧ b ≠ 0x22 ∧ b ≠ 0x5C ∧ b ≠ 0x3C ∧ b ≠ 0x3E ∧ b ≠ 0x26)

/-- One round of the loop of `appendString` (with `escapeHTML`) at a non-empty rest of the
source: the bytes appended for the next rune and the number of source bytes consumed.
(Backspace and form feed are written `\b` and `\f` as from Go 1.22; older releases write
`\u0008` and `\u000c`, which `unquoteBytes` decodes alike.) -/
def appendStringStep (src : List Nat) : List Nat × Nat :=
  match src with
  | [] => ([], 0)
  | b :: _ =>
    if b < 0x80 then
      if htmlSafeSet b then ([b], 1)
      else if b = 0x5C ∨ b = 0x22 then ([0x5C, b], 1)
      else if b = 0x08 then ([0x5C, 0x62], 1)
      else if b = 0x0C then ([0x5C, 0x66], 1)
      else if b = 0x0A then ([0x5C, 0x6E], 1)
      else if b = 0x0D then ([0x5C, 0x72], 1)
      else if b = 0x09 then ([0x5C, 0x74], 1)
      else ([0x5C, 0x75, 0x30, 0x30, hex (b / 16), hex (b % 16)], 1)
    else if (Utf8.DecodeRune src).1 = Utf8.RuneError ∧ (Utf8.DecodeRune src).2 = 1 then
      ([0x5C, 0x75, 0x66, 0x66, 0x66, 0x64], 1)
    else if (Utf8.DecodeRune src).1 = 0x2028 ∨ (Utf8.DecodeRune src).1 = 0x2029 then
      ([0x5C, 0x75, 0x32, 0x30, 0x32, hex ((Utf8.DecodeRune src).1 % 16)], (Utf8.DecodeRune src).2)
    else (src.take (Utf8.DecodeRune src).2, (Utf8.DecodeRune src).2)

/-- The loop of `appendString`: `skip` source bytes belong to the rune handled last. -/
def appendStringFrom : Nat → List Nat → List Nat
  | _, [] => []
  | skip + 1, _ :: rest => appendStringFrom skip rest
  | 0, b :: rest =>
    (appendStringStep (b :: rest)).1 ++ appendStringFrom ((appendStringStep (b :: rest)).2 - 1) rest

/-- The function `appendString(dst, src, escapeHTML = true)` on an empty `dst`: the JSON string
literal for `src`. -/
def appendString (src : List Nat) : List Nat :=
  0x22 :: (appendStringFrom 0 src ++ [0x22])

/-- The function `json.Marshal(v)` for `v` a `nil` interface (`none`) or a `string`; it
returns no error for these. -/
def Marshal (v : Option (List Nat)) : List Nat × Option Error :=
  match v with
  | none => (ascii "null", none)
  | some s => (appendString s, none)

/-- The function `isSpace` of the scanner. -/
def isSpace (c : Nat) : Bool :=
  decide (c ≤ 0x20 ∧ (c = 0x20 ∨ c = 0x09 ∨ c = 0x0D ∨ c = 0x0A))

/-- The scanner states inside a string literal: `stateInString`, `stateInStringEsc`, and
`stateInStringEscU` to `stateInStringEscU123` (by the number of hex digits still due). -/
inductive ScanState where
  | inString
  | inStringEsc
  | inStringEscU (due : Nat)

/-- A hexadecimal digit, as the scanner and `getu4` accept it, with its value. -/
def hexVal (c : Nat) : Option Nat :=
  if 0x30 ≤ c ∧ c ≤ 0x39 then some (c - 0x30)
  else if 0x61 ≤ c ∧ c ≤ 0x66 then some (c - 0x61 + 10)
  else if 0x41 ≤ c ∧ c ≤ 0x46 then some (c - 0x41 + 10)
  else none

/-- The scanner run from just after an opening quote: the bytes up to the closing quote and
the bytes after it, or `none` for a scan error or a literal that does not end. -/
def scanString : ScanState → List Nat → Option (List Nat × List Nat)
  | _, [] => none
  | .inString, c :: cs =>
    if c = 0x22 then some ([], cs)
    else if c = 0x5C then (scanString .inStringEsc cs).map (fun r => (c :: r.1, r.2))
    else if c < 0x20 then none
    else (scanString .inString cs).map (fun r => (c :: r.1, r.2))
  | .inStringEsc, c :: cs =>
    if c = 0x62 ∨ c = 0x66 ∨ c = 0x6E ∨ c = 0x72 ∨ c = 0x74 ∨ c = 0x5C ∨ c = 0x2F ∨ c = 0x22 then
      (scanString .inString cs).map (fun r => (c :: r.1, r.2))
    else if c = 0x75 then (scanString (.inStringEscU 4) cs).map (fun r => (c :: r.1, r.2))
    else none
  | .inStringEscU due, c :: cs =>
    if (hexVal c).isSome then
      (scanString (if due ≤ 1 then .inString else .inStringEscU (due - 1)) cs).map
        (fun r => (c :: r.1, r.2))
    else none

/-- The function `getu4`: the rune of a `\uXXXX` at the start of `s`, `none` (-1 in Go) if
there is none. -/
def getu4 (s : List Nat) : Option Nat :=
  match s with
  | p :: q :: a :: b :: c :: d :: _ =>
    if p = 0x5C ∧ q = 0x75 then
      match hexVal a, hexVal b, hexVal c, hexVal d with
      | some a, some b, some c, some d => some (((a * 16 + b) * 16 + c) * 16 + d)
      | _, _, _, _ => none
    else none
  | _ => none

/-- One round of the decoding loop of `unquoteBytes` at a non-empty rest of the literal's
inside: the bytes written and the number of bytes consumed, `none` where `unquoteBytes`
gives up. -/
def unquoteStep (s : List Nat) : Option (List Nat × Nat) :=
  match s with
  | [] => none
  | c :: rest =>
    if c = 0x5C then
      match rest with
      | [] => none
      | e :: _ =>
        if e = 0x22 ∨ e = 0x5C ∨ e = 0x2F ∨ e = 0x27 then some ([e], 2)
        else if e = 0x62 then some ([0x08], 2)
        else if e = 0x66 then some ([0x0C], 2)
        else if e = 0x6E then some ([0x0A], 2)
        else if e = 0x72 then some ([0x0D], 2)
        else if e = 0x74 then some ([0x09], 2)
        else if e = 0x75 then
          match getu4 s with
          | none => none
          | some rr =>
            if Utf8.IsSurrogate rr then
              match getu4 (s.drop 6) with
              | none => some (Utf8.EncodeRune 0xFFFD, 6)
              | some rr1 =>
                if Utf8.DecodeSurrogates rr rr1 ≠ 0xFFFD then
                  some (Utf8.EncodeRune (Utf8.DecodeSurrogates rr rr1), 12)
                else some (Utf8.EncodeRune 0xFFFD, 6)
            else some (Utf8.EncodeRune rr, 6)
        else none
    else if c = 0x22 ∨ c < 0x20 then none
    else if c < 0x80 then some ([c], 1)
    else some (Utf8.EncodeRune (Utf8.DecodeRune s).1, (Utf8.DecodeRune s).2)

/-- The decoding loop of `unquoteBytes` over the inside of a literal: `skip` bytes belong to
the item decoded last.  (Where no byte needs decoding `unquoteBytes` returns the inside
itself, which is what the loop yields then.) -/
def unquoteFrom : Nat → List Nat → Option (List Nat)
  | _, [] => some []
  | skip + 1, _ :: rest => unquoteFrom skip rest
  | 0, c :: rest =>
    match unquoteStep (c :: rest) with
    | none => none
    | some (out, n) => (unquoteFrom (n - 1) rest).map (fun t => out ++ t)

/-- The function `unquoteBytes` on the inside of a quoted string literal. -/
def unquote (body : List Nat) : Option (List Nat) :=
  unquoteFrom 0 body

/-- The input is one JSON string literal, possibly surrounded by white space; the result is
the inside of the literal. -/
def stringLiteral (data : List Nat) : Option (List Nat) :=
  match data.dropWhile isSpace with
  | c :: rest =>
    if c = 0x22 then
      match scanString .inString rest with
      | some (body, tail) => if tail.all isSpace then some body else none
      | none => none
    else none
  | [] => none

/-- The input is the JSON literal `null`, possibly surrounded by white space. -/
def nullLiteral (data : List Nat) : Bool :=
  match data.dropWhile isSpace with
  | n :: u :: l :: l' :: tail =>
    decide (n = 0x6E ∧ u = 0x75 ∧ l = 0x6C ∧ l' = 0x6C) && tail.all isSpace
  | _ => false

/-- The function `json.Unmarshal(data, &target)` for a `target` of type `string`: the new value
of the target and the error.  `null` leaves the target as it is, a string literal is
unquoted into it; any other input, whether another JSON value or no JSON at all, is an
error (`*UnmarshalTypeError` or `*SyntaxError`, not told apart here) and leaves the target as
it is. -/
def Unmarshal (data : List Nat) (target : List Nat) : List Nat × Option Error :=
  if nullLiteral data then (target, none)
  else
    match stringLiteral data with
    | some body =>
      match unquote body with
      | some text => (text, none)
      | none => (target, some "json: invalid string literal")
    | none => (target, some "json: cannot unmarshal into Go value of type string")

end Json

namespace Types

/-! ## `pkg/types/string.go`: `String` -/

set_option linter.dupNamespace false in
/-- The struct `String` (`sql.NullString` with JSON support): the embedded fields `String`
and `Valid`. -/
structure String where
  String : List Nat
  Valid : Bool
deriving DecidableEq

/-- The function `bytes.HasPrefix`. -/
def HasPrefix (s pre : List Nat) : Bool :=
  pre.isPrefixOf s

/-- The method `String.MarshalJSON`: supports JSON null. -/
def String.MarshalJSON (s : Types.String) : List Nat × Option Json.Error :=
  Json.Marshal (if s.Valid then some s.String else none)

/-- The method `String.UnmarshalJSON`: the receiver after the call and the returned error.
Supports JSON null. -/
def String.UnmarshalJSON (s : Types.String) (data : List Nat) :
    Types.String × Option Json.Error :=
  -- Ignore null, like in the main JSON package.
  if HasPrefix data [0x6E] then (s, none)
  else
    match Json.Unmarshal data s.String with
    | (text, none) => ({ String := text, Valid := true }, none)
    | (text, some err) => ({ s with String := text }, some err)

end Types

namespace Icingadb

/-! ## Theorems: `CleanupStmt.Build` -/

/-- The MySQL format of `Build`, evaluated. -/
theorem Sprintf_mysql_format (T C : String) (limit : Nat) :
    Sprintf
      "DELETE FROM %[1]s WHERE environment_id = :environment_id AND %[2]s < :time\nORDER BY %[2]s LIMIT %[3]d"
      [.str T, .str C, .uint64 limit]
    = "DELETE FROM " ++ T ++ " WHERE environment_id = :environment_id AND "
        ++ C ++ " < :time\nORDER BY " ++ C ++ " LIMIT " ++ Nat.repr limit := by
  apply String.ext
  simp [Sprintf, doPrintf, printArg, extraString]

set_option maxRecDepth 4000 in
/-- The PostgreSQL format of `Build`, evaluated. -/
theorem Sprintf_postgres_format (P T C : String) (limit : Nat) :
    Sprintf
      "WITH rows AS (\nSELECT %[1]s FROM %[2]s WHERE environment_id = :environment_id AND %[3]s < :time ORDER BY %[3]s LIMIT %[4]d\n)\nDELETE FROM %[2]s WHERE %[1]s IN (SELECT %[1]s FROM rows)"
      [.str P, .str T, .str C, .uint64 limit]
    = "WITH rows AS (\nSELECT " ++ P ++ " FROM " ++ T
        ++ " WHERE environment_id = :environment_id AND " ++ C ++ " < :time ORDER BY "
        ++ C ++ " LIMIT " ++ Nat.repr limit ++ "\n)\nDELETE FROM " ++ T
        ++ " WHERE " ++ P ++ " IN (SELECT " ++ P ++ " FROM rows)" := by
  apply String.ext
  simp [Sprintf, doPrintf, printArg, extraString]

/-- The panic message of `Build`, evaluated. -/
theorem Sprintf_invalid_database_type (d : String) :
    Sprintf "invalid database type %s" [.str d] = "invalid database type " ++ d := by
  apply String.ext
  simp [Sprintf, doPrintf, printArg, extraString]

/-- The method `Build` for the driver name "mysql". -/
theorem Build_mysql (stmt : CleanupStmt) (limit : Nat) :
    stmt.Build "mysql" limit = .ok
      ("DELETE FROM " ++ stmt.Table ++ " WHERE environment_id = :environment_id AND "
        ++ stmt.Column ++ " < :time\nORDER BY " ++ stmt.Column ++ " LIMIT " ++ Nat.repr limit) := by
  have h : ("mysql" : String) = MySQL := rfl
  rw [CleanupStmt.Build, if_pos h, Sprintf_mysql_format]

/-- The method `Build` for the driver name "postgres". -/
theorem Build_postgres (stmt : CleanupStmt) (limit : Nat) :
    stmt.Build "postgres" limit = .ok
      ("WITH rows AS (\nSELECT " ++ stmt.PK ++ " FROM " ++ stmt.Table
        ++ " WHERE environment_id = :environment_id AND " ++ stmt.Column ++ " < :time ORDER BY "
        ++ stmt.Column ++ " LIMIT " ++ Nat.repr limit ++ "\n)\nDELETE FROM " ++ stmt.Table
        ++ " WHERE " ++ stmt.PK ++ " IN (SELECT " ++ stmt.PK ++ " FROM rows)") := by
  have h1 : ¬ (("postgres" : String) = MySQL) := by decide
  have h2 : ("postgres" : String) = PostgreSQL := rfl
  rw [CleanupStmt.Build, if_neg h1, if_pos h2, Sprintf_postgres_format]

/-- The method `Build` for any other driver name. -/
theorem Build_unknown (stmt : CleanupStmt) (d : String) (limit : Nat)
    (h1 : d ≠ "mysql") (h2 : d ≠ "postgres") :
    stmt.Build d limit = .error ("invalid database type " ++ d) := by
  have h1' : ¬ d = MySQL := h1
  have h2' : ¬ d = PostgreSQL := h2
  rw [CleanupStmt.Build, if_neg h1', if_neg h2', Sprintf_invalid_database_type]

/-- C4. For every statement and every limit, `Build` returns for driver "mysql" the text
`DELETE FROM <Table> WHERE environment_id = :environment_id AND <Column> < :time`,
a newline, `ORDER BY <Column> LIMIT <limit>`, and for driver "postgres" the CTE text
selecting `<PK>` with the same filter, order and limit followed by
`DELETE FROM <Table> WHERE <PK> IN (SELECT <PK> FROM rows)`; the limit is the decimal
rendering of the batch size. -/
theorem Build_text (stmt : CleanupStmt) (limit : Nat) :
    stmt.Build "mysql" limit = .ok
      ("DELETE FROM " ++ stmt.Table ++ " WHERE environment_id = :environment_id AND "
        ++ stmt.Column ++ " < :time\nORDER BY " ++ stmt.Column ++ " LIMIT " ++ Nat.repr limit)
    ∧ stmt.Build "postgres" limit = .ok
      ("WITH rows AS (\nSELECT " ++ stmt.PK ++ " FROM " ++ stmt.Table
        ++ " WHERE environment_id = :environment_id AND " ++ stmt.Column ++ " < :time ORDER BY "
        ++ stmt.Column ++ " LIMIT " ++ Nat.repr limit ++ "\n)\nDELETE FROM " ++ stmt.Table
        ++ " WHERE " ++ stmt.PK ++ " IN (SELECT " ++ stmt.PK ++ " FROM rows)")
    ∧ (Nat.repr 1000 = "1000" ∧ Nat.repr 0 = "0"
        ∧ Nat.repr 18446744073709551615 = "18446744073709551615") :=
  ⟨Build_mysql stmt limit, Build_postgres stmt limit, rfl, rfl, rfl⟩

/-- C5. `Build` panics, with the message "invalid database type <name>", if and only if
the driver name is neither exactly "mysql" nor exactly "postgres"; the comparison is
case-sensitive ("MySQL", "postgresql" and the empty name panic), and for the two known
names it never panics, whatever the statement fields and the limit. -/
theorem Build_panics_iff (stmt : CleanupStmt) (driverName : String) (limit : Nat) :
    ((∃ msg, stmt.Build driverName limit = .error msg)
        ↔ (driverName ≠ "mysql" ∧ driverName ≠ "postgres"))
    ∧ (∀ msg, stmt.Build driverName limit = .error msg →
        msg = "invalid database type " ++ driverName)
    ∧ stmt.Build "MySQL" limit = .error "invalid database type MySQL"
    ∧ stmt.Build "postgresql" limit = .error "invalid database type postgresql"
    ∧ stmt.Build "" limit = .error "invalid database type "
    ∧ (∃ q, stmt.Build "mysql" limit = .ok q) ∧ (∃ q, stmt.Build "postgres" limit = .ok q) := by
  refine ⟨⟨?_, ?_⟩, ?_, ?_, ?_, ?_, ?_, ?_⟩
  · rintro ⟨msg, h⟩
    constructor
    · intro hd
      rw [hd, Build_mysql] at h
      exact Except.noConfusion h
    · intro hd
      rw [hd, Build_postgres] at h
      exact Except.noConfusion h
  · rintro ⟨h1, h2⟩
    exact ⟨_, Build_unknown stmt driverName limit h1 h2⟩
  · intro msg h
    by_cases h1 : driverName = "mysql"
    · rw [h1, Build_mysql] at h
      exact Except.noConfusion h
    · by_cases h2 : driverName = "postgres"
      · rw [h2, Build_postgres] at h
        exact Except.noConfusion h
      · rw [Build_unknown stmt driverName limit h1 h2] at h
        exact (Except.error.inj h).symm
  · exact Build_unknown stmt "MySQL" limit (by decide) (by decide)
  · exact Build_unknown stmt "postgresql" limit (by decide) (by decide)
  · exact Build_unknown stmt "" limit (by decide) (by decide)
  · exact ⟨_, Build_mysql stmt limit⟩
  · exact ⟨_, Build_postgres stmt limit⟩

end Icingadb

namespace Icingadb

/-! ## Theorems: `DB.CleanupOlderThan` -/

/-- No first row exactly when the `WHERE` clause selects nothing. -/
theorem oldest_eq_none_iff (w : cleanupWhere) (table : Table) :
    oldest w table = none ↔ olderRows w table = [] := by
  induction table with
  | nil => simp [oldest, olderRows]
  | cons r rs ih =>
    unfold olderRows at ih ⊢
    by_cases h : older w r = true
    · simp only [oldest, h, if_true, List.filter_cons_of_pos]
      cases oldest w rs with
      | none => simp
      | some r' => by_cases h' : r'.time < r.time <;> simp [h']
    · rw [List.filter_cons_of_neg h]
      simp only [oldest, h]
      exact ih

/-- The conversion `int64(count)` keeps a batch size below `2^63`. -/
theorem int64_of_lt (n : Nat) (h : n < 2 ^ 63) : int64 n = (n : Int) := by
  have h1 : n % 2 ^ 64 = n := Nat.mod_eq_of_lt (by omega)
  simp only [int64, h1]
  rw [if_pos h]

/-- The conversion `int64(count)` is negative from `2^63` on. -/
theorem int64_neg_of_ge (n : Nat) (h1 : 2 ^ 63 ≤ n) (h2 : n < 2 ^ 64) : int64 n < 0 := by
  have h3 : n % 2 ^ 64 = n := Nat.mod_eq_of_lt h2
  simp only [int64, h3]
  rw [if_neg (by omega)]
  omega

/-- The conversion `uint64(rowsDeleted)` keeps a row count below `2^64`. -/
theorem uint64_natCast (n : Nat) (h : n < 2 ^ 64) : uint64 (n : Int) = n := by
  simp only [uint64]
  have : ((n : Int) % 2 ^ 64) = (n : Int) := Int.emod_eq_of_lt (by omega) (by omega)
  rw [this]
  simp

/-- Callbacks that all return nil let a round with a non-negative row count pass. -/
theorem runOnSuccess_eq_none (onSuccess : List OnSuccess) (n : Nat)
    (hcb : ∀ cb ∈ onSuccess, ∀ k, cb k = none) :
    runOnSuccess (n : Int) onSuccess = none := by
  induction onSuccess with
  | nil => rfl
  | cons cb rest ih =>
    have hn : ¬ ((n : Int) < 0) := by omega
    simp only [runOnSuccess, hn, if_false, hcb cb (List.mem_cons_self _ _)]
    exact ih (fun cb' hmem => hcb cb' (List.mem_cons_of_mem _ hmem))

/-- The rounds of the loop for a batch size `1 ≤ count < 2^63` on a database that removes a
batch in every round: with `m` selected rows it runs `m / count` full rounds and one short
round, adds `m` to the counter and leaves no selected row, for every bound on the number
of rounds that admits `m / count + 1` of them. -/
theorem cleanupLoop_batches (db : DB) (q : String) (w : cleanupWhere) (count : Nat)
    (onSuccess : List OnSuccess) (h1 : 1 ≤ count) (h2 : count < 2 ^ 63)
    (hcb : ∀ cb ∈ onSuccess, ∀ k, cb k = none) (hdb : DeletesBatch db q w count)
    (fuel : Nat) (table : Table) (counter : Nat) (rounds : List Int)
    (hfuel : (olderRows w table).length / count + 1 ≤ fuel) :
    ∃ table', cleanupLoop db q w count onSuccess fuel table counter rounds
        = some ⟨table',
            rounds ++ (List.replicate ((olderRows w table).length / count) (count : Int)
              ++ [(((olderRows w table).length % count : Nat) : Int)]),
            .ok ((counter + (olderRows w table).length) % 2 ^ 64)⟩
      ∧ olderRows w table' = [] := by
  induction fuel generalizing table counter rounds with
  | zero => exact absurd hfuel (Nat.not_succ_le_zero _)
  | succ fuel ih =>
    obtain ⟨table', hexec, hlen⟩ := hdb table
    generalize hm : (olderRows w table).length = m at *
    have hi : int64 count = (count : Int) := int64_of_lt count h2
    by_cases hlt : m < count
    · refine ⟨table', ?_, ?_⟩
      · have hmin : min count m = m := by omega
        rw [hmin] at hexec
        have hu : uint64 (m : Int) = m := uint64_natCast m (by omega)
        have hcmp : (m : Int) < (count : Int) := by omega
        simp only [cleanupLoop, hexec, runOnSuccess_eq_none onSuccess m hcb, hi, hcmp, if_true, hu,
          Nat.div_eq_of_lt hlt, Nat.mod_eq_of_lt hlt, List.replicate_zero, List.nil_append]
      · have : (olderRows w table').length = 0 := by omega
        exact List.length_eq_zero.mp this
    · have hmin : min count m = count := by omega
      rw [hmin] at hexec hlen
      have hu : uint64 (count : Int) = count := uint64_natCast count (by omega)
      have hcmp : ¬ ((count : Int) < (count : Int)) := by omega
      have hdiv : m / count = (m - count) / count + 1 := by
        have := Nat.sub_add_cancel (Nat.le_of_not_lt hlt)
        conv_lhs => rw [← this]
        exact Nat.add_div_right _ (by omega)
      have hmod : m % count = (m - count) % count := by
        have := Nat.sub_add_cancel (Nat.le_of_not_lt hlt)
        conv_lhs => rw [← this]
        exact Nat.add_mod_right _ _
      obtain ⟨t'', hrun, hnone⟩ := ih table' ((counter + count) % 2 ^ 64)
        (rounds ++ [(count : Int)]) (by rw [hlen]; rw [hdiv] at hfuel; omega)
      refine ⟨t'', ?_, hnone⟩
      simp only [cleanupLoop, hexec, runOnSuccess_eq_none onSuccess count hcb, hi, hcmp, if_false, hu]
      rw [hrun, hlen, hdiv, hmod]
      have hc : ((counter + count) % 2 ^ 64 + (m - count)) % 2 ^ 64 = (counter + m) % 2 ^ 64 := by
        omega
      rw [hc, List.replicate_succ, List.append_assoc, List.singleton_append, List.cons_append]

/-- The whole call for a known driver and a batch size `1 ≤ count < 2^63` on a database that
removes a batch in every round: it returns after `m / count` full rounds and one short
round with the total `m` (as a `uint64`) and leaves no selected row. -/
theorem CleanupOlderThan_run (db : DB) (stmt : CleanupStmt) (envId : List Nat) (count : Nat)
    (olderThan : Int) (onSuccess : List OnSuccess) (table : Table)
    (hdrv : db.DriverName = "mysql" ∨ db.DriverName = "postgres")
    (h1 : 1 ≤ count) (h2 : count < 2 ^ 63)
    (hcb : ∀ cb ∈ onSuccess, ∀ k, cb k = none)
    (hdb : ∀ text, stmt.Build db.DriverName count = .ok text →
      DeletesBatch db (db.Rebind text) ⟨envId, olderThan⟩ count)
    (fuel : Nat) (hfuel : (olderRows ⟨envId, olderThan⟩ table).length / count + 1 ≤ fuel) :
    ∃ table', db.CleanupOlderThan stmt envId count olderThan onSuccess fuel table
        = some ⟨table',
            List.replicate ((olderRows ⟨envId, olderThan⟩ table).length / count) (count : Int)
              ++ [(((olderRows ⟨envId, olderThan⟩ table).length % count : Nat) : Int)],
            .ok ((olderRows ⟨envId, olderThan⟩ table).length % 2 ^ 64)⟩
      ∧ olderRows ⟨envId, olderThan⟩ table' = [] := by
  obtain ⟨text, htext⟩ : ∃ text, stmt.Build db.DriverName count = .ok text := by
    rcases hdrv with h | h
    · exact ⟨_, by rw [h]; exact Build_mysql stmt count⟩
    · exact ⟨_, by rw [h]; exact Build_postgres stmt count⟩
  obtain ⟨table', hrun, hnone⟩ := cleanupLoop_batches db (db.Rebind text) ⟨envId, olderThan⟩ count
    onSuccess h1 h2 hcb (hdb text htext) fuel table 0 [] hfuel
  refine ⟨table', ?_, hnone⟩
  simp only [DB.CleanupOlderThan, htext]
  rw [hrun]
  simp

/-- The retention scenario of the specification: 3,500 selected rows and a batch size of
1,000 give four rounds (1000, 1000, 1000, 500) and the total 3,500, and no selected row is
left. -/
theorem CleanupOlderThan_retention_batch (db : DB) (stmt : CleanupStmt) (envId : List Nat)
    (olderThan : Int) (table : Table)
    (hdrv : db.DriverName = "mysql" ∨ db.DriverName = "postgres")
    (hdb : ∀ text, stmt.Build db.DriverName 1000 = .ok text →
      DeletesBatch db (db.Rebind text) ⟨envId, olderThan⟩ 1000)
    (hrows : (olderRows ⟨envId, olderThan⟩ table).length = 3500) :
    ∃ table', db.CleanupOlderThan stmt envId 1000 olderThan [] 4 table
        = some ⟨table', [1000, 1000, 1000, 500], .ok 3500⟩
      ∧ olderRows ⟨envId, olderThan⟩ table' = [] := by
  obtain ⟨table', hrun, hnone⟩ := CleanupOlderThan_run db stmt envId 1000 olderThan [] table hdrv
    (by omega) (by omega) (by simp) hdb 4 (by rw [hrows])
  refine ⟨table', ?_, hnone⟩
  rw [hrun, hrows]
  rfl

/-- A round on a table without selected rows deletes nothing, whatever the limit. -/
theorem deleteOldest_of_olderRows_nil (w : cleanupWhere) (limit : Nat) (table : Table)
    (h : olderRows w table = []) : deleteOldest w limit table = (table, 0) := by
  cases limit with
  | zero => rfl
  | succ n => simp only [deleteOldest, (oldest_eq_none_iff w table).mpr h]

/-- A loop whose every round leaves the table as it is and reports a row count that is not
below `int64(count)` never ends. -/
theorem cleanupLoop_eq_none (db : DB) (q : String) (w : cleanupWhere) (count : Nat)
    (table : Table) (rowsDeleted : Int)
    (hexec : db.NamedExecContext q w table = .ok (table, rowsDeleted))
    (hcmp : ¬ rowsDeleted < int64 count) (fuel counter : Nat) (rounds : List Int) :
    cleanupLoop db q w count [] fuel table counter rounds = none := by
  induction fuel generalizing counter rounds with
  | zero => rfl
  | succ fuel ih =>
    simp only [cleanupLoop, hexec, runOnSuccess, hcmp, if_false]
    exact ih _ _

/-- On a MySQL handle the call is the loop over the MySQL statement. -/
theorem CleanupOlderThan_mysql (db : DB) (stmt : CleanupStmt) (envId : List Nat) (count : Nat)
    (olderThan : Int) (onSuccess : List OnSuccess) (fuel : Nat) (table : Table)
    (hdrv : db.DriverName = "mysql") :
    db.CleanupOlderThan stmt envId count olderThan onSuccess fuel table
      = cleanupLoop db (db.Rebind
          ("DELETE FROM " ++ stmt.Table ++ " WHERE environment_id = :environment_id AND "
            ++ stmt.Column ++ " < :time\nORDER BY " ++ stmt.Column ++ " LIMIT " ++ Nat.repr count))
          ⟨envId, olderThan⟩ count onSuccess fuel table 0 [] := by
  unfold DB.CleanupOlderThan
  rw [hdrv, Build_mysql]

/-- C3 (the code at the failing input). With the batch size `2^63` and three selected rows the
first round deletes all three rows, fewer than the batch size, and the claim has the call
return 3 after this one round; but `int64(count)` is `-2^63`, the comparison
`rowsDeleted < int64(count)` is false for 3 and for 0, and the call has not returned after
any number of rounds. -/
theorem CleanupOlderThan_count_2_pow_63 :
    int64 (2 ^ 63) = -2 ^ 63
    ∧ (sqlDB "mysql" (2 ^ 63)).NamedExecContext "" ⟨[7], 100⟩
        [⟨1, [7], 50⟩, ⟨4, [7], 20⟩, ⟨5, [7], 99⟩] = .ok ([], 3)
    ∧ (3 : Int) < ((2 ^ 63 : Nat) : Int)
    ∧ ∀ fuel, (sqlDB "mysql" (2 ^ 63)).CleanupOlderThan ⟨"history", "id", "event_time"⟩ [7]
        (2 ^ 63) 100 [] fuel [⟨1, [7], 50⟩, ⟨4, [7], 20⟩, ⟨5, [7], 99⟩] = none := by
  have hexec : ∀ q, (sqlDB "mysql" (2 ^ 63)).NamedExecContext q ⟨[7], 100⟩
      [⟨1, [7], 50⟩, ⟨4, [7], 20⟩, ⟨5, [7], 99⟩] = .ok ([], 3) := by
    intro q
    have hd : deleteOldest ⟨[7], 100⟩ (2 ^ 63)
        [⟨1, [7], 50⟩, ⟨4, [7], 20⟩, ⟨5, [7], 99⟩] = ([], 3) := by
      have h3 : (2 ^ 63 : Nat) = (2 ^ 63 - 4) + 1 + 1 + 1 + 1 := by decide
      rw [h3]
      decide
    simp only [sqlDB]
    rw [hd]
    rfl
  refine ⟨by decide, hexec "", by decide, ?_⟩
  intro fuel
  cases fuel with
  | zero => rw [CleanupOlderThan_mysql _ _ _ _ _ _ _ _ rfl]; rfl
  | succ fuel =>
    have hcmp : ¬ ((3 : Int) < int64 (2 ^ 63)) := by decide
    rw [CleanupOlderThan_mysql _ _ _ _ _ _ _ _ rfl]
    simp only [cleanupLoop, hexec, runOnSuccess, hcmp, if_false]
    refine cleanupLoop_eq_none _ _ _ (2 ^ 63) _ 0 ?_ (by decide) fuel _ _
    simp only [sqlDB]
    rw [deleteOldest_of_olderRows_nil _ _ [] rfl]
    rfl

end Icingadb

namespace History

/-! ## Theorems: `stateHistoryToSlaEntity` -/

/-- C1. For every state-history message whose values decode into an `SlaHistoryState`,
`stateHistoryToSlaEntity` returns exactly one entity, the decoded state itself, if and only
if the decoded `StateType` equals `HardState`; for every other state type it returns an
empty result and no error. -/
theorem stateHistoryToSlaEntity_hard_iff
    (slaStateStructify : List (String × String) → Except String SlaHistoryState)
    (HardState : Nat) (entry : XMessage) (slaState : SlaHistoryState)
    (hdecode : slaStateStructify entry.Values = .ok slaState) :
    (stateHistoryToSlaEntity slaStateStructify HardState entry = .ok [slaState]
        ↔ slaState.StateType = HardState)
    ∧ (slaState.StateType ≠ HardState →
        stateHistoryToSlaEntity slaStateStructify HardState entry = .ok []) := by
  unfold stateHistoryToSlaEntity
  rw [hdecode]
  by_cases h : slaState.StateType = HardState
  · simp [h]
  · simp [h]

/-- Witness of C1: a hard state change (`state_type` 1, with `HardState` = 1) is passed on. -/
theorem stateHistoryToSlaEntity_hard_iff_witness :
    (stateHistoryToSlaEntity readStateType 1
          ⟨"1700000000000-0", [("host_id", "ab"), ("state_type", "1"), ("hard_state", "2")]⟩
        = .ok [⟨1, [("host_id", "ab"), ("state_type", "1"), ("hard_state", "2")]⟩]
        ↔ (1 : Nat) = 1)
    ∧ ((1 : Nat) ≠ 1 →
        stateHistoryToSlaEntity readStateType 1
          ⟨"1700000000000-0", [("host_id", "ab"), ("state_type", "1"), ("hard_state", "2")]⟩
        = .ok []) :=
  stateHistoryToSlaEntity_hard_iff readStateType 1
    ⟨"1700000000000-0", [("host_id", "ab"), ("state_type", "1"), ("hard_state", "2")]⟩
    ⟨1, [("host_id", "ab"), ("state_type", "1"), ("hard_state", "2")]⟩ (by decide)

end History

namespace Icingadb

/-! ## Theorems: the hooks of `RetryConnector.Connect` -/

/-- The `k`-th hook call of a connect attempt sequence is `OnRetryableError` for the `k`-th
error, with the error before it as `lastErr`. -/
theorem hookCalls_get (clock : Nat → Nat) (errs : List String) (attempt : Nat)
    (lastErr : Option String) (k : Nat) (err : String) (hk : errs.get? k = some err) :
    (hookCalls clock attempt lastErr errs).get? k
      = some (OnRetryableError (clock (attempt + k)) (attempt + k) err
          (errBefore lastErr errs k)) := by
  induction errs generalizing attempt lastErr k with
  | nil => simp at hk
  | cons e rest ih =>
    cases k with
    | zero =>
      simp only [List.get?_cons_zero, Option.some.injEq] at hk
      subst hk
      rfl
    | succ k =>
      simp only [List.get?_cons_succ] at hk
      simp only [hookCalls, List.get?_cons_succ]
      rw [ih (attempt + 1) (some e) k hk]
      have h1 : attempt + 1 + k = attempt + (k + 1) := by omega
      rw [h1]
      cases k with
      | zero => rfl
      | succ j => rfl

/-- The last hook call of a connect attempt sequence is `OnSuccess`, with the number of
attempts made. -/
theorem hookCalls_last (clock : Nat → Nat) (errs : List String) (attempt : Nat)
    (lastErr : Option String) :
    (hookCalls clock attempt lastErr errs).get? errs.length
      = some (OnSuccess.hook (clock (attempt + errs.length)) (attempt + errs.length)
          (if errs = [] then lastErr else errs.getLast?)) := by
  induction errs generalizing attempt lastErr with
  | nil => simp [hookCalls]
  | cons e rest ih =>
    simp only [hookCalls, List.length_cons, List.get?_cons_succ]
    rw [ih (attempt + 1) (some e)]
    have h1 : attempt + 1 + rest.length = attempt + (rest.length + 1) := by omega
    rw [h1]
    cases rest with
    | nil => simp
    | cons r rs => simp [List.getLast?_cons_cons]

/-- What `OnRetryableError` does, in full: it hands the error to the telemetry and then logs
the warning unless the error before had the same message. -/
theorem OnRetryableError_eq (elapsed attempt : Nat) (err : String) (lastErr : Option String) :
    OnRetryableError elapsed attempt err lastErr
      = .telemetry (some err) ::
          (if lastErr = some err then []
           else [.warn "Can't connect to database. Retrying" err]) := by
  cases lastErr with
  | none => simp [OnRetryableError]
  | some last =>
    by_cases h : err = last
    · simp [OnRetryableError, h]
    · have h' : ¬ last = err := fun h0 => h h0.symm
      simp [OnRetryableError, h, h']

/-- What `OnSuccess` does, in full: it hands nil to the telemetry and then logs the
reconnect if it took more than one attempt. -/
theorem OnSuccess_hook_eq (elapsed attempt : Nat) (lastErr : Option String) :
    OnSuccess.hook elapsed attempt lastErr
      = .telemetry none ::
          (if 1 < attempt then [.info "Reconnected to database" elapsed attempt] else []) :=
  rfl

/-- C8. For every sequence of retryable connection errors seen by `RetryConnector.Connect`,
the `OnRetryableError` hook logs the warning "Can't connect to database. Retrying" for an
error if and only if there is no previous error or its message differs from the previous
error's message, while the telemetry error is updated on every call: the hook hands the
error to the telemetry, does so once and hands it nothing else, so that the error is the
telemetry error after the call whatever it was before; and the `OnSuccess` hook resets the
telemetry error to nil and logs "Reconnected to database" with the elapsed time and the
attempt count if and only if the attempt number is greater than 1.  Each hook call does
nothing besides. -/
theorem Connect_hooks_log (clock : Nat → Nat) (errs : List String) :
    (∀ elapsed attempt err lastErr,
      Effect.telemetry (some err) ∈ OnRetryableError elapsed attempt err lastErr
      ∧ ∀ m e, Effect.warn m e ∈ OnRetryableError elapsed attempt err lastErr
          ↔ (m = "Can't connect to database. Retrying" ∧ e = err
              ∧ (lastErr = none ∨ ∃ last, lastErr = some last ∧ err ≠ last)))
    ∧ (∀ elapsed attempt lastErr,
      Effect.telemetry none ∈ OnSuccess.hook elapsed attempt lastErr
      ∧ ∀ m a n, Effect.info m a n ∈ OnSuccess.hook elapsed attempt lastErr
          ↔ (m = "Reconnected to database" ∧ a = elapsed ∧ n = attempt ∧ 1 < attempt))
    ∧ (∀ k err, errs.get? k = some err →
      ∃ effects, (Connect.hooks clock errs).get? k = some effects
        ∧ Effect.telemetry (some err) ∈ effects
        ∧ ∀ m e, Effect.warn m e ∈ effects
            ↔ (m = "Can't connect to database. Retrying" ∧ e = err
                ∧ (k = 0 ∨ ∃ previous, errs.get? (k - 1) = some previous ∧ err ≠ previous)))
    ∧ (∃ effects, (Connect.hooks clock errs).get? errs.length = some effects
        ∧ Effect.telemetry none ∈ effects
        ∧ ∀ m a n, Effect.info m a n ∈ effects
            ↔ (m = "Reconnected to database" ∧ a = clock (errs.length + 1)
                ∧ n = errs.length + 1 ∧ errs ≠ []))
    ∧ (∀ elapsed attempt err lastErr,
      OnRetryableError elapsed attempt err lastErr
        = .telemetry (some err) ::
            (if lastErr = some err then []
             else [.warn "Can't connect to database. Retrying" err])
      ∧ (∀ t, Effect.telemetry t ∈ OnRetryableError elapsed attempt err lastErr ↔ t = some err)
      ∧ (∀ current, lastTelemetry current (OnRetryableError elapsed attempt err lastErr)
          = some err))
    ∧ (∀ elapsed attempt lastErr,
      OnSuccess.hook elapsed attempt lastErr
        = .telemetry none ::
            (if 1 < attempt then [.info "Reconnected to database" elapsed attempt] else [])
      ∧ (∀ t, Effect.telemetry t ∈ OnSuccess.hook elapsed attempt lastErr ↔ t = none)
      ∧ (∀ current, lastTelemetry current (OnSuccess.hook elapsed attempt lastErr) = none))
    ∧ (∀ k err, errs.get? k = some err →
      (Connect.hooks clock errs).get? k
        = some (.telemetry (some err) ::
            (if k ≠ 0 ∧ errs.get? (k - 1) = some err then []
             else [.warn "Can't connect to database. Retrying" err])))
    ∧ (Connect.hooks clock errs).get? errs.length
        = some (.telemetry none ::
            (if errs = [] then []
             else [.info "Reconnected to database" (clock (errs.length + 1))
                (errs.length + 1)])) := by
  have hretry : ∀ elapsed attempt err lastErr,
      Effect.telemetry (some err) ∈ OnRetryableError elapsed attempt err lastErr
      ∧ ∀ m e, Effect.warn m e ∈ OnRetryableError elapsed attempt err lastErr
          ↔ (m = "Can't connect to database. Retrying" ∧ e = err
              ∧ (lastErr = none ∨ ∃ last, lastErr = some last ∧ err ≠ last)) := by
    intro elapsed attempt err lastErr
    refine ⟨by simp [OnRetryableError], ?_⟩
    intro m e
    cases lastErr with
    | none => simp [OnRetryableError]
    | some last =>
      by_cases h : err = last
      · simp [OnRetryableError, h]
      · simp [OnRetryableError, h]
  have hsuccess : ∀ elapsed attempt lastErr,
      Effect.telemetry none ∈ OnSuccess.hook elapsed attempt lastErr
      ∧ ∀ m a n, Effect.info m a n ∈ OnSuccess.hook elapsed attempt lastErr
          ↔ (m = "Reconnected to database" ∧ a = elapsed ∧ n = attempt ∧ 1 < attempt) := by
    intro elapsed attempt lastErr
    refine ⟨by simp [OnSuccess.hook], ?_⟩
    intro m a n
    by_cases h : attempt > 1
    · simp [OnSuccess.hook, h]
    · simp [OnSuccess.hook, h]
  refine ⟨hretry, hsuccess, ?_, ?_, ?_, ?_, ?_, ?_⟩
  · intro k err hk
    refine ⟨_, hookCalls_get clock errs 1 none k err hk, (hretry _ _ _ _).1, ?_⟩
    intro m e
    rw [(hretry _ _ _ _).2 m e]
    cases k with
    | zero => simp [errBefore]
    | succ j =>
      have hj : j < errs.length := by
        have := (List.get?_eq_some.mp hk).1
        omega
      simp [errBefore]
      intro _ _ hle
      omega
  · refine ⟨_, hookCalls_last clock errs 1 none, (hsuccess _ _ _).1, ?_⟩
    intro m a n
    rw [(hsuccess _ _ _).2 m a n]
    have h1 : 1 + errs.length = errs.length + 1 := by omega
    rw [h1]
    cases errs with
    | nil => simp
    | cons e rest => simp
  · intro elapsed attempt err lastErr
    refine ⟨OnRetryableError_eq elapsed attempt err lastErr, ?_, ?_⟩
    · intro t
      rw [OnRetryableError_eq]
      by_cases h : lastErr = some err
      · simp [h, eq_comm]
      · simp [h, eq_comm]
    · intro current
      rw [OnRetryableError_eq]
      by_cases h : lastErr = some err
      · simp [h, lastTelemetry]
      · simp [h, lastTelemetry]
  · intro elapsed attempt lastErr
    refine ⟨rfl, ?_, ?_⟩
    · intro t
      rw [OnSuccess_hook_eq]
      by_cases h : 1 < attempt
      · simp [h, eq_comm]
      · simp [h, eq_comm]
    · intro current
      rw [OnSuccess_hook_eq]
      by_cases h : 1 < attempt
      · simp [h, lastTelemetry]
      · simp [h, lastTelemetry]
  · intro k err hk
    have h := hookCalls_get clock errs 1 none k err hk
    rw [Connect.hooks, h, OnRetryableError_eq]
    cases k with
    | zero => simp [errBefore]
    | succ j => simp [errBefore]
  · have h := hookCalls_last clock errs 1 none
    rw [Connect.hooks, h, OnSuccess_hook_eq]
    have h1 : 1 + errs.length = errs.length + 1 := by omega
    rw [h1]
    cases errs with
    | nil => simp
    | cons e rest => simp

end Icingadb

namespace Main

/-! ## Theorems: the sync iteration of `main` -/

/-- One iteration reads the last id of "icinga:runtime" before it starts the runtime-update
task and the initial-sync tasks, and hands exactly the id it read to the runtime-update
task. -/
theorem syncIteration_order (StreamLastId : String → Except String String)
    (Factories : List String) (waitErr : Option String) :
    ∃ post,
      (syncIteration StreamLastId Factories waitErr).1
        = [.NewDumpSignals, .GoDumpListen,
            .StreamLastId "icinga:runtime" (StreamLastId "icinga:runtime")] ++ post
      ∧ (∀ id, Event.GoRuntimeSync id ∈ post → StreamLastId "icinga:runtime" = .ok id)
      ∧ (∀ id, StreamLastId "icinga:runtime" = .ok id →
          Event.GoRuntimeSync id ∈ post ∧ ∀ f ∈ Factories, Event.GoSyncAfterDump f ∈ post) := by
  cases h : StreamLastId "icinga:runtime" with
  | error err =>
    refine ⟨[.Panic err], ?_, ?_, ?_⟩
    · simp [syncIteration, h]
    · intro id hmem; simp at hmem
    · intro id hid; simp at hid
  | ok lastId =>
    cases waitErr with
    | none =>
      refine ⟨[.GoDumpInProgress, .GoHistorySync, .GoRuntimeSync lastId]
        ++ Factories.map .GoSyncAfterDump ++ [.Wait], ?_, ?_, ?_⟩
      · simp [syncIteration, h]
      · intro id hmem
        simp at hmem
        rw [hmem]
      · intro id hid
        have : lastId = id := Except.ok.inj hid
        subst this
        simp
    | some err =>
      refine ⟨[.GoDumpInProgress, .GoHistorySync, .GoRuntimeSync lastId]
        ++ Factories.map .GoSyncAfterDump ++ [.Wait, .Panic err], ?_, ?_, ?_⟩
      · simp [syncIteration, h]
      · intro id hmem
        simp at hmem
        rw [hmem]
      · intro id hid
        have : lastId = id := Except.ok.inj hid
        subst this
        simp

/-- C7. In every sync iteration started after a Takeover, the last message id of the
"icinga:runtime" stream is read (`StreamLastId`) before the runtime-update task and before
any per-kind initial-sync task (`SyncAfterDump`) of that iteration is started, and the id
passed to `RuntimeUpdates.Sync` is exactly the id read in that same iteration: iteration
`k` passes what the stream store answers during iteration `k`. -/
theorem syncLoop_reads_last_id_first (rc : Nat → String → Except String String)
    (Factories : List String) (waitErr : Nat → Option String) (n k i : Nat)
    (trace : List Event) (h : (syncLoop rc Factories waitErr n k).get? i = some trace) :
    ∃ post,
      trace = [.NewDumpSignals, .GoDumpListen,
          .StreamLastId "icinga:runtime" (rc (k + i) "icinga:runtime")] ++ post
      ∧ (∀ e ∈ [Event.NewDumpSignals, Event.GoDumpListen], e.startsSync = false)
      ∧ (∀ id, Event.GoRuntimeSync id ∈ post → rc (k + i) "icinga:runtime" = .ok id)
      ∧ (∀ id, rc (k + i) "icinga:runtime" = .ok id →
          Event.GoRuntimeSync id ∈ post ∧ ∀ f ∈ Factories, Event.GoSyncAfterDump f ∈ post) := by
  induction n generalizing k i with
  | zero => simp [syncLoop] at h
  | succ n ih =>
    cases i with
    | zero =>
      simp only [syncLoop, List.get?_cons_zero, Option.some.injEq] at h
      subst h
      obtain ⟨post, h1, h2, h3⟩ := syncIteration_order (rc k) Factories (waitErr k)
      exact ⟨post, h1, by decide, h2, h3⟩
    | succ j =>
      simp only [syncLoop, List.get?_cons_succ] at h
      by_cases hp : (syncIteration (rc k) Factories (waitErr k)).2 = true
      · rw [if_pos hp] at h
        simp at h
      · rw [if_neg hp] at h
        have := ih (k + 1) j h
        have hk : k + 1 + j = k + (j + 1) := by omega
        rw [hk] at this
        exact this

/-- Witness of C7: two iterations over the factories `host` and `service`; the stream's
last id is "1-0" during the first iteration and "2-0" during the second, and the second
iteration passes "2-0". -/
theorem syncLoop_reads_last_id_first_witness :
    (syncLoop (fun k _ => .ok (if k = 0 then "1-0" else "2-0")) ["host", "service"]
        (fun _ => none) 2 0).get? 1
      = some [.NewDumpSignals, .GoDumpListen, .StreamLastId "icinga:runtime" (.ok "2-0"),
          .GoDumpInProgress, .GoHistorySync, .GoRuntimeSync "2-0", .GoSyncAfterDump "host",
          .GoSyncAfterDump "service", .Wait]
    ∧ ∃ post,
      [Event.NewDumpSignals, .GoDumpListen, .StreamLastId "icinga:runtime" (.ok "2-0"),
          .GoDumpInProgress, .GoHistorySync, .GoRuntimeSync "2-0", .GoSyncAfterDump "host",
          .GoSyncAfterDump "service", .Wait]
        = [.NewDumpSignals, .GoDumpListen, .StreamLastId "icinga:runtime" (.ok "2-0")] ++ post
      ∧ (∀ e ∈ [Event.NewDumpSignals, Event.GoDumpListen], e.startsSync = false)
      ∧ (∀ id, Event.GoRuntimeSync id ∈ post → (Except.ok "2-0" : Except String String) = .ok id)
      ∧ (∀ id, (Except.ok "2-0" : Except String String) = .ok id →
          Event.GoRuntimeSync id ∈ post
          ∧ ∀ f ∈ ["host", "service"], Event.GoSyncAfterDump f ∈ post) :=
  ⟨by decide,
   syncLoop_reads_last_id_first (fun k _ => .ok (if k = 0 then "1-0" else "2-0"))
    ["host", "service"] (fun _ => none) 2 0 1 _ (by decide)⟩

end Main

namespace Utf8

/-! ## Theorems: UTF-8 -/

/-- The table `first` at the first byte of a two-byte sequence. -/
theorem first_two (p0 : Nat) (h1 : 0xC2 ≤ p0) (h2 : p0 ≤ 0xDF) : first p0 = 0x02 := by
  unfold first
  repeat (first | rw [if_pos (by omega)] | rw [if_neg (by omega)])

/-- The table `first` at the first byte of a three-byte sequence. -/
theorem first_three (p0 : Nat) (h1 : 0xE0 ≤ p0) (h2 : p0 ≤ 0xEF) :
    first p0 = 0x13 ∧ p0 = 0xE0 ∨ first p0 = 0x23 ∧ p0 = 0xED
      ∨ first p0 = 0x03 ∧ p0 ≠ 0xE0 ∧ p0 ≠ 0xED := by
  by_cases ha : p0 = 0xE0
  · subst ha
    exact Or.inl ⟨rfl, rfl⟩
  · by_cases hb : p0 = 0xED
    · subst hb
      exact Or.inr (Or.inl ⟨rfl, rfl⟩)
    · refine Or.inr (Or.inr ⟨?_, ha, hb⟩)
      unfold first
      by_cases hc : p0 ≤ 0xEC
      · repeat (first | rw [if_pos (by omega)] | rw [if_neg (by omega)])
      · repeat (first | rw [if_pos (by omega)] | rw [if_neg (by omega)])

/-- The table `first` at the first byte of a four-byte sequence. -/
theorem first_four (p0 : Nat) (h1 : 0xF0 ≤ p0) (h2 : p0 ≤ 0xF4) :
    first p0 = 0x34 ∧ p0 = 0xF0 ∨ first p0 = 0x44 ∧ p0 = 0xF4
      ∨ first p0 = 0x04 ∧ p0 ≠ 0xF0 ∧ p0 ≠ 0xF4 := by
  by_cases ha : p0 = 0xF0
  · subst ha
    exact Or.inl ⟨rfl, rfl⟩
  · by_cases hb : p0 = 0xF4
    · subst hb
      exact Or.inr (Or.inl ⟨rfl, rfl⟩)
    · refine Or.inr (Or.inr ⟨?_, ha, hb⟩)
      unfold first
      repeat (first | rw [if_pos (by omega)] | rw [if_neg (by omega)])

/-- The table `first` at a byte that starts no sequence. -/
theorem first_invalid (p0 : Nat) (h0 : 0x80 ≤ p0) (h : p0 < 0xC2 ∨ 0xF4 < p0) :
    first p0 = 0xF1 := by
  unfold first
  rcases h with h | h
  · repeat (first | rw [if_pos (by omega)] | rw [if_neg (by omega)])
  · repeat (first | rw [if_pos (by omega)] | rw [if_neg (by omega)])

/-- The table `first` at an ASCII byte. -/
theorem first_ascii (p0 : Nat) (h0 : p0 < 0x80) : first p0 = 0xF0 := by
  unfold first
  rw [if_pos h0]

/-- The function `DecodeRune` on a two-byte sequence. -/
theorem DecodeRune_two (p0 b1 : Nat) (t : List Nat) (h1 : 0xC2 ≤ p0) (h2 : p0 ≤ 0xDF)
    (h3 : 0x80 ≤ b1) (h4 : b1 ≤ 0xBF) :
    DecodeRune (p0 :: b1 :: t) = (p0 % 32 * 64 + b1 % 64, 2) := by
  have hf := first_two p0 h1 h2
  unfold DecodeRune
  simp only [hf, acceptRanges]
  simp
  repeat rw [if_neg (by omega)]

/-- The function `DecodeRune` on a three-byte sequence. -/
theorem DecodeRune_three (p0 b1 b2 : Nat) (t : List Nat) (h1 : 0xE0 ≤ p0) (h2 : p0 ≤ 0xEF)
    (h3 : 0x80 ≤ b1) (h4 : b1 ≤ 0xBF) (h5 : p0 = 0xE0 → 0xA0 ≤ b1) (h6 : p0 = 0xED → b1 ≤ 0x9F)
    (h7 : 0x80 ≤ b2) (h8 : b2 ≤ 0xBF) :
    DecodeRune (p0 :: b1 :: b2 :: t) = (p0 % 16 * 4096 + b1 % 64 * 64 + b2 % 64, 3) := by
  have hf := first_three p0 h1 h2
  rcases hf with ⟨hf, hp⟩ | ⟨hf, hp⟩ | ⟨hf, hp, hp'⟩
  · have := h5 hp
    unfold DecodeRune
    simp only [hf, acceptRanges]
    simp
    repeat rw [if_neg (by omega)]
  · have := h6 hp
    unfold DecodeRune
    simp only [hf, acceptRanges]
    simp
    repeat rw [if_neg (by omega)]
  · unfold DecodeRune
    simp only [hf, acceptRanges]
    simp
    repeat rw [if_neg (by omega)]

/-- The function `DecodeRune` on a four-byte sequence. -/
theorem DecodeRune_four (p0 b1 b2 b3 : Nat) (t : List Nat) (h1 : 0xF0 ≤ p0) (h2 : p0 ≤ 0xF4)
    (h3 : 0x80 ≤ b1) (h4 : b1 ≤ 0xBF) (h5 : p0 = 0xF0 → 0x90 ≤ b1) (h6 : p0 = 0xF4 → b1 ≤ 0x8F)
    (h7 : 0x80 ≤ b2) (h8 : b2 ≤ 0xBF) (h9 : 0x80 ≤ b3) (h10 : b3 ≤ 0xBF) :
    DecodeRune (p0 :: b1 :: b2 :: b3 :: t)
      = (p0 % 8 * 262144 + b1 % 64 * 4096 + b2 % 64 * 64 + b3 % 64, 4) := by
  have hf := first_four p0 h1 h2
  rcases hf with ⟨hf, hp⟩ | ⟨hf, hp⟩ | ⟨hf, hp, hp'⟩
  · have := h5 hp
    unfold DecodeRune
    simp only [hf, acceptRanges]
    simp
    repeat rw [if_neg (by omega)]
  · have := h6 hp
    unfold DecodeRune
    simp only [hf, acceptRanges]
    simp
    repeat rw [if_neg (by omega)]
  · unfold DecodeRune
    simp only [hf, acceptRanges]
    simp
    repeat rw [if_neg (by omega)]

/-- The function `DecodeRune` at a byte that starts no sequence. -/
theorem DecodeRune_invalid_first (p0 : Nat) (rest : List Nat) (h0 : 0x80 ≤ p0)
    (h : p0 < 0xC2 ∨ 0xF4 < p0) : DecodeRune (p0 :: rest) = (RuneError, 1) := by
  unfold DecodeRune
  simp only [first_invalid p0 h0 h]
  simp

/-- The function `DecodeRune` at an ASCII byte. -/
theorem DecodeRune_ascii (p0 : Nat) (rest : List Nat) (h0 : p0 < 0x80) :
    DecodeRune (p0 :: rest) = (p0, 1) := by
  unfold DecodeRune
  simp only [first_ascii p0 h0]
  simp

end Utf8
namespace Utf8

/-- The function `DecodeRune` at the first byte of a two-byte sequence: an error or a whole sequence. -/
theorem DecodeRune_two_cases (p0 : Nat) (rest : List Nat) (h1 : 0xC2 ≤ p0) (h2 : p0 ≤ 0xDF) :
    DecodeRune (p0 :: rest) = (RuneError, 1)
    ∨ ∃ b1 t, rest = b1 :: t ∧ 0x80 ≤ b1 ∧ b1 ≤ 0xBF := by
  have hf := first_two p0 h1 h2
  cases rest with
  | nil =>
    left
    unfold DecodeRune
    simp only [hf, acceptRanges]
    simp
  | cons b1 t =>
    by_cases hb : 0x80 ≤ b1 ∧ b1 ≤ 0xBF
    · exact Or.inr ⟨b1, t, rfl, hb.1, hb.2⟩
    · left
      unfold DecodeRune
      simp only [hf, acceptRanges]
      simp
      omega

/-- The function `DecodeRune` at the first byte of a three-byte sequence: an error or a whole sequence. -/
theorem DecodeRune_three_cases (p0 : Nat) (rest : List Nat) (h1 : 0xE0 ≤ p0) (h2 : p0 ≤ 0xEF) :
    DecodeRune (p0 :: rest) = (RuneError, 1)
    ∨ ∃ b1 b2 t, rest = b1 :: b2 :: t ∧ 0x80 ≤ b1 ∧ b1 ≤ 0xBF ∧ (p0 = 0xE0 → 0xA0 ≤ b1)
        ∧ (p0 = 0xED → b1 ≤ 0x9F) ∧ 0x80 ≤ b2 ∧ b2 ≤ 0xBF := by
  have hf := first_three p0 h1 h2
  cases rest with
  | nil =>
    left
    rcases hf with ⟨hf, hp⟩ | ⟨hf, hp⟩ | ⟨hf, hp, hp'⟩ <;>
    · unfold DecodeRune
      simp only [hf, acceptRanges]
      simp
  | cons b1 rest1 =>
    cases rest1 with
    | nil =>
      left
      rcases hf with ⟨hf, hp⟩ | ⟨hf, hp⟩ | ⟨hf, hp, hp'⟩ <;>
      · unfold DecodeRune
        simp only [hf, acceptRanges]
        simp
    | cons b2 t =>
      by_cases hb : 0x80 ≤ b1 ∧ b1 ≤ 0xBF ∧ (p0 = 0xE0 → 0xA0 ≤ b1) ∧ (p0 = 0xED → b1 ≤ 0x9F)
          ∧ 0x80 ≤ b2 ∧ b2 ≤ 0xBF
      · exact Or.inr ⟨b1, b2, t, rfl, hb⟩
      · left
        rcases hf with ⟨hf, hp⟩ | ⟨hf, hp⟩ | ⟨hf, hp, hp'⟩ <;>
        · unfold DecodeRune
          simp only [hf, acceptRanges]
          simp
          omega

/-- The function `DecodeRune` at the first byte of a four-byte sequence: an error or a whole sequence. -/
theorem DecodeRune_four_cases (p0 : Nat) (rest : List Nat) (h1 : 0xF0 ≤ p0) (h2 : p0 ≤ 0xF4) :
    DecodeRune (p0 :: rest) = (RuneError, 1)
    ∨ ∃ b1 b2 b3 t, rest = b1 :: b2 :: b3 :: t ∧ 0x80 ≤ b1 ∧ b1 ≤ 0xBF ∧ (p0 = 0xF0 → 0x90 ≤ b1)
        ∧ (p0 = 0xF4 → b1 ≤ 0x8F) ∧ 0x80 ≤ b2 ∧ b2 ≤ 0xBF ∧ 0x80 ≤ b3 ∧ b3 ≤ 0xBF := by
  have hf := first_four p0 h1 h2
  cases rest with
  | nil =>
    left
    rcases hf with ⟨hf, hp⟩ | ⟨hf, hp⟩ | ⟨hf, hp, hp'⟩ <;>
    · unfold DecodeRune
      simp only [hf, acceptRanges]
      simp
  | cons b1 rest1 =>
    cases rest1 with
    | nil =>
      left
      rcases hf with ⟨hf, hp⟩ | ⟨hf, hp⟩ | ⟨hf, hp, hp'⟩ <;>
      · unfold DecodeRune
        simp only [hf, acceptRanges]
        simp
    | cons b2 rest2 =>
      cases rest2 with
      | nil =>
        left
        rcases hf with ⟨hf, hp⟩ | ⟨hf, hp⟩ | ⟨hf, hp, hp'⟩ <;>
        · unfold DecodeRune
          simp only [hf, acceptRanges]
          simp
      | cons b3 t =>
        by_cases hb : 0x80 ≤ b1 ∧ b1 ≤ 0xBF ∧ (p0 = 0xF0 → 0x90 ≤ b1) ∧ (p0 = 0xF4 → b1 ≤ 0x8F)
            ∧ 0x80 ≤ b2 ∧ b2 ≤ 0xBF ∧ 0x80 ≤ b3 ∧ b3 ≤ 0xBF
        · exact Or.inr ⟨b1, b2, b3, t, rfl, hb⟩
        · left
          rcases hf with ⟨hf, hp⟩ | ⟨hf, hp⟩ | ⟨hf, hp, hp'⟩ <;>
          · unfold DecodeRune
            simp only [hf, acceptRanges]
            simp
            omega

end Utf8
namespace Utf8

/-- The function `EncodeRune` gives back the bytes of a two-byte sequence. -/
theorem EncodeRune_two (p0 b1 : Nat) (h1 : 0xC2 ≤ p0) (h2 : p0 ≤ 0xDF)
    (h3 : 0x80 ≤ b1) (h4 : b1 ≤ 0xBF) :
    EncodeRune (p0 % 32 * 64 + b1 % 64) = [p0, b1] := by
  unfold EncodeRune
  rw [if_neg (by omega), if_pos (by omega)]
  have e1 : 0xC0 + (p0 % 32 * 64 + b1 % 64) / 64 = p0 := by omega
  have e2 : 0x80 + (p0 % 32 * 64 + b1 % 64) % 64 = b1 := by omega
  rw [e1, e2]

/-- The function `EncodeRune` gives back the bytes of a three-byte sequence. -/
theorem EncodeRune_three (p0 b1 b2 : Nat) (h1 : 0xE0 ≤ p0) (h2 : p0 ≤ 0xEF)
    (h3 : 0x80 ≤ b1) (h4 : b1 ≤ 0xBF) (h5 : p0 = 0xE0 → 0xA0 ≤ b1) (h6 : p0 = 0xED → b1 ≤ 0x9F)
    (h7 : 0x80 ≤ b2) (h8 : b2 ≤ 0xBF) :
    EncodeRune (p0 % 16 * 4096 + b1 % 64 * 64 + b2 % 64) = [p0, b1, b2] := by
  unfold EncodeRune
  rw [if_neg (by omega), if_neg (by omega), if_neg (by omega), if_pos (by omega)]
  have e1 : 0xE0 + (p0 % 16 * 4096 + b1 % 64 * 64 + b2 % 64) / 4096 = p0 := by omega
  have e2 : 0x80 + (p0 % 16 * 4096 + b1 % 64 * 64 + b2 % 64) / 64 % 64 = b1 := by omega
  have e3 : 0x80 + (p0 % 16 * 4096 + b1 % 64 * 64 + b2 % 64) % 64 = b2 := by omega
  rw [e1, e2, e3]

/-- The function `EncodeRune` gives back the bytes of a four-byte sequence. -/
theorem EncodeRune_four (p0 b1 b2 b3 : Nat) (h1 : 0xF0 ≤ p0) (h2 : p0 ≤ 0xF4)
    (h3 : 0x80 ≤ b1) (h4 : b1 ≤ 0xBF) (h5 : p0 = 0xF0 → 0x90 ≤ b1) (h6 : p0 = 0xF4 → b1 ≤ 0x8F)
    (h7 : 0x80 ≤ b2) (h8 : b2 ≤ 0xBF) (h9 : 0x80 ≤ b3) (h10 : b3 ≤ 0xBF) :
    EncodeRune (p0 % 8 * 262144 + b1 % 64 * 4096 + b2 % 64 * 64 + b3 % 64)
      = [p0, b1, b2, b3] := by
  unfold EncodeRune
  rw [if_neg (by omega), if_neg (by omega), if_neg (by omega), if_neg (by omega)]
  have e1 : 0xF0 + (p0 % 8 * 262144 + b1 % 64 * 4096 + b2 % 64 * 64 + b3 % 64) / 262144 = p0 := by
    omega
  have e2 : 0x80 + (p0 % 8 * 262144 + b1 % 64 * 4096 + b2 % 64 * 64 + b3 % 64) / 4096 % 64
      = b1 := by omega
  have e3 : 0x80 + (p0 % 8 * 262144 + b1 % 64 * 4096 + b2 % 64 * 64 + b3 % 64) / 64 % 64
      = b2 := by omega
  have e4 : 0x80 + (p0 % 8 * 262144 + b1 % 64 * 4096 + b2 % 64 * 64 + b3 % 64) % 64 = b3 := by
    omega
  rw [e1, e2, e3, e4]

/-- A rune that `DecodeRune` accepts at a non-ASCII first byte: its bytes are its
`EncodeRune`, they are all at least 0x80, and they decode alike before any other text. -/
theorem DecodeRune_multibyte (p0 : Nat) (rest : List Nat) (h0 : 0x80 ≤ p0)
    (hv : ¬ ((DecodeRune (p0 :: rest)).1 = RuneError ∧ (DecodeRune (p0 :: rest)).2 = 1)) :
    ∃ chunk tail, p0 :: rest = chunk ++ tail
      ∧ chunk.length = (DecodeRune (p0 :: rest)).2
      ∧ EncodeRune (DecodeRune (p0 :: rest)).1 = chunk
      ∧ (∀ b ∈ chunk, 0x80 ≤ b)
      ∧ (∀ t, DecodeRune (chunk ++ t) = DecodeRune (p0 :: rest))
      ∧ 2 ≤ chunk.length := by
  by_cases hr : p0 < 0xC2 ∨ 0xF4 < p0
  · rw [DecodeRune_invalid_first p0 rest h0 hr] at hv
    exact absurd ⟨rfl, rfl⟩ hv
  · by_cases h2 : p0 ≤ 0xDF
    · rcases DecodeRune_two_cases p0 rest (by omega) h2 with herr | ⟨b1, t, rfl, h3, h4⟩
      · rw [herr] at hv
        exact absurd ⟨rfl, rfl⟩ hv
      · have hd := fun t' => DecodeRune_two p0 b1 t' (by omega) h2 h3 h4
        refine ⟨[p0, b1], t, rfl, ?_, ?_, ?_, ?_, by simp⟩
        · rw [hd]; rfl
        · rw [hd]; exact EncodeRune_two p0 b1 (by omega) h2 h3 h4
        · intro b hb
          simp at hb
          omega
        · intro t'
          rw [hd t]
          exact hd t'
    · by_cases h3 : p0 ≤ 0xEF
      · rcases DecodeRune_three_cases p0 rest (by omega) h3 with
          herr | ⟨b1, b2, t, rfl, h4, h5, h6, h7, h8, h9⟩
        · rw [herr] at hv
          exact absurd ⟨rfl, rfl⟩ hv
        · have hd := fun t' => DecodeRune_three p0 b1 b2 t' (by omega) h3 h4 h5 h6 h7 h8 h9
          refine ⟨[p0, b1, b2], t, rfl, ?_, ?_, ?_, ?_, by simp⟩
          · rw [hd]; rfl
          · rw [hd]; exact EncodeRune_three p0 b1 b2 (by omega) h3 h4 h5 h6 h7 h8 h9
          · intro b hb
            simp at hb
            omega
          · intro t'
            rw [hd t]
            exact hd t'
      · rcases DecodeRune_four_cases p0 rest (by omega) (by omega) with
          herr | ⟨b1, b2, b3, t, rfl, h4, h5, h6, h7, h8, h9, h10, h11⟩
        · rw [herr] at hv
          exact absurd ⟨rfl, rfl⟩ hv
        · have hd := fun t' => DecodeRune_four p0 b1 b2 b3 t' (by omega) (by omega) h4 h5 h6 h7
            h8 h9 h10 h11
          refine ⟨[p0, b1, b2, b3], t, rfl, ?_, ?_, ?_, ?_, by simp⟩
          · rw [hd]; rfl
          · rw [hd]
            exact EncodeRune_four p0 b1 b2 b3 (by omega) (by omega) h4 h5 h6 h7 h8 h9 h10 h11
          · intro b hb
            simp at hb
            omega
          · intro t'
            rw [hd t]
            exact hd t'

end Utf8

namespace Json

/-! ## Theorems: `encoding/json` on strings -/

/-- Skipping bytes of the rune handled last amounts to dropping them. -/
theorem appendStringFrom_skip (skip : Nat) (src : List Nat) :
    appendStringFrom skip src = appendStringFrom 0 (src.drop skip) := by
  induction src generalizing skip with
  | nil => simp [appendStringFrom]
  | cons b rest ih =>
    cases skip with
    | zero => rfl
    | succ k => simp only [appendStringFrom, List.drop_succ_cons]; exact ih k

/-- Skipping bytes of the item decoded last amounts to dropping them. -/
theorem unquoteFrom_skip (skip : Nat) (s : List Nat) :
    unquoteFrom skip s = unquoteFrom 0 (s.drop skip) := by
  induction s generalizing skip with
  | nil => simp [unquoteFrom]
  | cons b rest ih =>
    cases skip with
    | zero => rfl
    | succ k => simp only [unquoteFrom, List.drop_succ_cons]; exact ih k

/-- One round of `appendString` followed by the rounds on the rest of the source. -/
theorem appendStringFrom_cons (b : Nat) (rest : List Nat)
    (h : 1 ≤ (appendStringStep (b :: rest)).2) :
    appendStringFrom 0 (b :: rest)
      = (appendStringStep (b :: rest)).1
        ++ appendStringFrom 0 ((b :: rest).drop (appendStringStep (b :: rest)).2) := by
  simp only [appendStringFrom]
  rw [appendStringFrom_skip]
  obtain ⟨k, hk⟩ : ∃ k, (appendStringStep (b :: rest)).2 = k + 1 := ⟨_, (Nat.sub_add_cancel h).symm⟩
  rw [hk]
  simp

/-- One decoded item followed by the decoding of the rest of the literal. -/
theorem unquoteFrom_chunk (chunk more out : List Nat) (hne : chunk ≠ [])
    (h : unquoteStep (chunk ++ more) = some (out, chunk.length)) :
    unquoteFrom 0 (chunk ++ more) = (unquoteFrom 0 more).map (fun t => out ++ t) := by
  cases chunk with
  | nil => exact absurd rfl hne
  | cons c cs =>
    simp only [List.cons_append] at h ⊢
    simp only [unquoteFrom, h]
    rw [unquoteFrom_skip]
    simp

/-- The scanner step `stateInString`. -/
theorem scanString_inString (c : Nat) (cs : List Nat) :
    scanString .inString (c :: cs)
      = if c = 0x22 then some ([], cs)
        else if c = 0x5C then (scanString .inStringEsc cs).map (fun r => (c :: r.1, r.2))
        else if c < 0x20 then none
        else (scanString .inString cs).map (fun r => (c :: r.1, r.2)) := rfl

/-- The scanner step `stateInStringEsc`. -/
theorem scanString_inStringEsc (c : Nat) (cs : List Nat) :
    scanString .inStringEsc (c :: cs)
      = if c = 0x62 ∨ c = 0x66 ∨ c = 0x6E ∨ c = 0x72 ∨ c = 0x74 ∨ c = 0x5C ∨ c = 0x2F
            ∨ c = 0x22 then
          (scanString .inString cs).map (fun r => (c :: r.1, r.2))
        else if c = 0x75 then (scanString (.inStringEscU 4) cs).map (fun r => (c :: r.1, r.2))
        else none := rfl

/-- The scanner steps `stateInStringEscU` to `stateInStringEscU123`. -/
theorem scanString_inStringEscU (due c : Nat) (cs : List Nat) :
    scanString (.inStringEscU due) (c :: cs)
      = if (hexVal c).isSome then
          (scanString (if due ≤ 1 then .inString else .inStringEscU (due - 1)) cs).map
            (fun r => (c :: r.1, r.2))
        else none := rfl

/-- The scanner passes over bytes that are neither a quote, nor a backslash, nor a control
character. -/
theorem scanString_plain (chunk more : List Nat)
    (h : ∀ b ∈ chunk, 0x20 ≤ b ∧ b ≠ 0x22 ∧ b ≠ 0x5C) :
    scanString .inString (chunk ++ more)
      = (scanString .inString more).map (fun r => (chunk ++ r.1, r.2)) := by
  induction chunk with
  | nil => simp
  | cons c cs ih =>
    have hc := h c (List.mem_cons_self _ _)
    have ih' := ih (fun b hb => h b (List.mem_cons_of_mem _ hb))
    rw [List.cons_append, scanString_inString, if_neg hc.2.1, if_neg hc.2.2,
      if_neg (by omega), ih']
    cases scanString .inString more <;> simp

/-- The scanner passes over a two-character escape. -/
theorem scanString_escape (e : Nat) (more : List Nat)
    (h : e = 0x62 ∨ e = 0x66 ∨ e = 0x6E ∨ e = 0x72 ∨ e = 0x74 ∨ e = 0x5C ∨ e = 0x2F ∨ e = 0x22) :
    scanString .inString (0x5C :: e :: more)
      = (scanString .inString more).map (fun r => (0x5C :: e :: r.1, r.2)) := by
  rw [scanString_inString, if_neg (by omega), if_pos rfl, scanString_inStringEsc, if_pos h]
  cases scanString .inString more <;> simp

/-- The scanner passes over a `\u` escape with four hexadecimal digits. -/
theorem scanString_escapeU (a b c d : Nat) (more : List Nat)
    (ha : (hexVal a).isSome = true) (hb : (hexVal b).isSome = true)
    (hc : (hexVal c).isSome = true) (hd : (hexVal d).isSome = true) :
    scanString .inString (0x5C :: 0x75 :: a :: b :: c :: d :: more)
      = (scanString .inString more).map
          (fun r => (0x5C :: 0x75 :: a :: b :: c :: d :: r.1, r.2)) := by
  rw [scanString_inString, if_neg (by omega), if_pos rfl, scanString_inStringEsc,
    if_neg (by omega), if_pos rfl]
  simp only [scanString_inStringEscU, ha, hb, hc, hd, if_true, Nat.reduceLeDiff, if_false,
    Nat.add_one_sub_one, Nat.reduceSub, Nat.le_refl]
  cases scanString .inString more <;> simp

/-- A digit of the table `hex` has its value. -/
theorem hexVal_hex (n : Nat) (h : n < 16) : hexVal (hex n) = some n := by
  unfold hexVal hex
  by_cases h10 : n < 10
  · rw [if_pos h10, if_pos (by omega)]
    congr 1
    omega
  · rw [if_neg h10, if_neg (by omega), if_pos (by omega)]
    congr 1
    omega

/-- The function `getu4` reads an escape written with the table `hex`. -/
theorem getu4_hex (a b c d : Nat) (more : List Nat) (ha : a < 16) (hb : b < 16) (hc : c < 16)
    (hd : d < 16) :
    getu4 (0x5C :: 0x75 :: hex a :: hex b :: hex c :: hex d :: more)
      = some (((a * 16 + b) * 16 + c) * 16 + d) := by
  simp only [getu4, hexVal_hex a ha, hexVal_hex b hb, hexVal_hex c hc, hexVal_hex d hd]
  simp

end Json
namespace Json

/-- The function `unquoteBytes` copies a plain ASCII byte. -/
theorem unquoteStep_plain (c : Nat) (more : List Nat) (h1 : c ≠ 0x5C)
    (h2 : ¬ (c = 0x22 ∨ c < 0x20)) (h3 : c < 0x80) :
    unquoteStep (c :: more) = some ([c], 1) := by
  simp only [unquoteStep]
  rw [if_neg h1, if_neg h2, if_pos h3]

/-- The function `unquoteBytes` decodes and encodes again a rune that starts at a non-ASCII byte. -/
theorem unquoteStep_multibyte (c : Nat) (more : List Nat) (h : 0x80 ≤ c) :
    unquoteStep (c :: more)
      = some (Utf8.EncodeRune (Utf8.DecodeRune (c :: more)).1, (Utf8.DecodeRune (c :: more)).2) := by
  simp only [unquoteStep]
  rw [if_neg (by omega), if_neg (by omega), if_neg (by omega)]

/-- The function `unquoteBytes` at a backslash followed by one more byte. -/
theorem unquoteStep_backslash (e : Nat) (more : List Nat) :
    unquoteStep (0x5C :: e :: more)
      = if e = 0x22 ∨ e = 0x5C ∨ e = 0x2F ∨ e = 0x27 then some ([e], 2)
        else if e = 0x62 then some ([0x08], 2)
        else if e = 0x66 then some ([0x0C], 2)
        else if e = 0x6E then some ([0x0A], 2)
        else if e = 0x72 then some ([0x0D], 2)
        else if e = 0x74 then some ([0x09], 2)
        else if e = 0x75 then
          match getu4 (0x5C :: e :: more) with
          | none => none
          | some rr =>
            if Utf8.IsSurrogate rr then
              match getu4 ((0x5C :: e :: more).drop 6) with
              | none => some (Utf8.EncodeRune 0xFFFD, 6)
              | some rr1 =>
                if Utf8.DecodeSurrogates rr rr1 ≠ 0xFFFD then
                  some (Utf8.EncodeRune (Utf8.DecodeSurrogates rr rr1), 12)
                else some (Utf8.EncodeRune 0xFFFD, 6)
            else some (Utf8.EncodeRune rr, 6)
        else none := by
  simp only [unquoteStep, if_true]

/-- The function `unquoteBytes` decodes a `\u` escape written with the table `hex` for a rune that is no
surrogate. -/
theorem unquoteStep_escapeU (a b c d : Nat) (more : List Nat) (ha : a < 16) (hb : b < 16)
    (hc : c < 16) (hd : d < 16)
    (hs : Utf8.IsSurrogate (((a * 16 + b) * 16 + c) * 16 + d) = false) :
    unquoteStep (0x5C :: 0x75 :: hex a :: hex b :: hex c :: hex d :: more)
      = some (Utf8.EncodeRune (((a * 16 + b) * 16 + c) * 16 + d), 6) := by
  rw [unquoteStep_backslash, if_neg (by omega), if_neg (by omega), if_neg (by omega),
    if_neg (by omega), if_neg (by omega), if_neg (by omega), if_pos rfl,
    getu4_hex a b c d more ha hb hc hd]
  simp only [hs]
  rfl

end Json
namespace Json

/-- One round of `appendString` and the matching rounds of the scanner and of
`unquoteBytes`: for a source that starts with a valid rune, the round consumes that rune,
the scanner passes over what the round appended, and `unquoteBytes` decodes it to the
bytes of the rune. -/
theorem appendStringStep_spec (b : Nat) (rest : List Nat)
    (hv : ¬ ((Utf8.DecodeRune (b :: rest)).1 = Utf8.RuneError
      ∧ (Utf8.DecodeRune (b :: rest)).2 = 1)) :
    ∃ out n, appendStringStep (b :: rest) = (out, n)
      ∧ n = (Utf8.DecodeRune (b :: rest)).2
      ∧ 1 ≤ n ∧ n ≤ (b :: rest).length ∧ out ≠ []
      ∧ (∀ more, scanString .inString (out ++ more)
          = (scanString .inString more).map (fun r => (out ++ r.1, r.2)))
      ∧ (∀ more, unquoteStep (out ++ more) = some ((b :: rest).take n, out.length)) := by
  by_cases hb : b < 0x80
  · have hsize : 1 = (Utf8.DecodeRune (b :: rest)).2 := by rw [Utf8.DecodeRune_ascii b rest hb]
    by_cases hs : htmlSafeSet b = true
    · have hs' : 0x20 ≤ b ∧ b ≠ 0x22 ∧ b ≠ 0x5C := by
        simp only [htmlSafeSet, decide_eq_true_eq] at hs
        omega
      refine ⟨[b], 1, by simp only [appendStringStep, hb, hs, if_true], hsize, le_refl _, by simp,
        by simp, fun more => scanString_plain [b] more (by simpa using hs'), fun more => ?_⟩
      exact unquoteStep_plain b more hs'.2.2 (by omega) hb
    · have hstep : appendStringStep (b :: rest)
          = if b = 0x5C ∨ b = 0x22 then ([0x5C, b], 1)
            else if b = 0x08 then ([0x5C, 0x62], 1)
            else if b = 0x0C then ([0x5C, 0x66], 1)
            else if b = 0x0A then ([0x5C, 0x6E], 1)
            else if b = 0x0D then ([0x5C, 0x72], 1)
            else if b = 0x09 then ([0x5C, 0x74], 1)
            else ([0x5C, 0x75, 0x30, 0x30, hex (b / 16), hex (b % 16)], 1) := by
        simp only [appendStringStep, hb, hs, if_true]
        rfl
      rw [hstep]
      by_cases h1 : b = 0x5C ∨ b = 0x22
      · refine ⟨[0x5C, b], 1, if_pos h1, hsize, le_refl _, by simp, by simp,
          fun more => scanString_escape b more (by omega), fun more => ?_⟩
        show unquoteStep (0x5C :: b :: more) = _
        rw [unquoteStep_backslash, if_pos (by omega)]
        rfl
      · rw [if_neg h1]
        by_cases h2 : b = 0x08
        · refine ⟨[0x5C, 0x62], 1, if_pos h2, hsize, le_refl _, by simp, by simp,
            fun more => scanString_escape _ more (by omega), fun more => ?_⟩
          show unquoteStep (0x5C :: 0x62 :: more) = _
          rw [unquoteStep_backslash, if_neg (by omega), if_pos rfl, h2]
          rfl
        · rw [if_neg h2]
          by_cases h3 : b = 0x0C
          · refine ⟨[0x5C, 0x66], 1, if_pos h3, hsize, le_refl _, by simp, by simp,
              fun more => scanString_escape _ more (by omega), fun more => ?_⟩
            show unquoteStep (0x5C :: 0x66 :: more) = _
            rw [unquoteStep_backslash, if_neg (by omega), if_neg (by omega), if_pos rfl, h3]
            rfl
          · rw [if_neg h3]
            by_cases h4 : b = 0x0A
            · refine ⟨[0x5C, 0x6E], 1, if_pos h4, hsize, le_refl _, by simp, by simp,
                fun more => scanString_escape _ more (by omega), fun more => ?_⟩
              show unquoteStep (0x5C :: 0x6E :: more) = _
              rw [unquoteStep_backslash, if_neg (by omega), if_neg (by omega),
                if_neg (by omega), if_pos rfl, h4]
              rfl
            · rw [if_neg h4]
              by_cases h5 : b = 0x0D
              · refine ⟨[0x5C, 0x72], 1, if_pos h5, hsize, le_refl _, by simp, by simp,
                  fun more => scanString_escape _ more (by omega), fun more => ?_⟩
                show unquoteStep (0x5C :: 0x72 :: more) = _
                rw [unquoteStep_backslash, if_neg (by omega), if_neg (by omega),
                  if_neg (by omega), if_neg (by omega), if_pos rfl, h5]
                rfl
              · rw [if_neg h5]
                by_cases h6 : b = 0x09
                · refine ⟨[0x5C, 0x74], 1, if_pos h6, hsize, le_refl _, by simp, by simp,
                    fun more => scanString_escape _ more (by omega), fun more => ?_⟩
                  show unquoteStep (0x5C :: 0x74 :: more) = _
                  rw [unquoteStep_backslash, if_neg (by omega), if_neg (by omega),
                    if_neg (by omega), if_neg (by omega), if_neg (by omega), if_pos rfl, h6]
                  rfl
                · refine ⟨[0x5C, 0x75, 0x30, 0x30, hex (b / 16), hex (b % 16)], 1, if_neg h6,
                    hsize, le_refl _, by simp, by simp, fun more => ?_, fun more => ?_⟩
                  · exact scanString_escapeU 0x30 0x30 (hex (b / 16)) (hex (b % 16)) more
                      (by decide) (by decide)
                      (by rw [hexVal_hex _ (by omega)]; rfl)
                      (by rw [hexVal_hex _ (by omega)]; rfl)
                  · have h := unquoteStep_escapeU 0 0 (b / 16) (b % 16) more (by omega)
                      (by omega) (by omega) (by omega)
                      (by simp only [Utf8.IsSurrogate, decide_eq_false_iff_not]; omega)
                    have hval : ((0 * 16 + 0) * 16 + b / 16) * 16 + b % 16 = b := by omega
                    rw [hval] at h
                    have henc : Utf8.EncodeRune b = [b] := by
                      unfold Utf8.EncodeRune
                      rw [if_pos (by omega)]
                    rw [henc] at h
                    exact h
  · obtain ⟨chunk, tail, hsplit, hlen, henc, hge, hdec, h2⟩ :=
      Utf8.DecodeRune_multibyte b rest (by omega) hv
    have htake : (b :: rest).take (Utf8.DecodeRune (b :: rest)).2 = chunk := by
      rw [← hlen, hsplit]
      simp
    have hlen' : (Utf8.DecodeRune (b :: rest)).2 ≤ (b :: rest).length := by
      rw [← hlen, hsplit]
      simp
    have hstep : appendStringStep (b :: rest)
        = if (Utf8.DecodeRune (b :: rest)).1 = 0x2028 ∨ (Utf8.DecodeRune (b :: rest)).1 = 0x2029
          then ([0x5C, 0x75, 0x32, 0x30, 0x32, hex ((Utf8.DecodeRune (b :: rest)).1 % 16)],
            (Utf8.DecodeRune (b :: rest)).2)
          else ((b :: rest).take (Utf8.DecodeRune (b :: rest)).2,
            (Utf8.DecodeRune (b :: rest)).2) := by
      simp only [appendStringStep, hb, if_false, hv]
    by_cases hls : (Utf8.DecodeRune (b :: rest)).1 = 0x2028
        ∨ (Utf8.DecodeRune (b :: rest)).1 = 0x2029
    · refine ⟨[0x5C, 0x75, 0x32, 0x30, 0x32, hex ((Utf8.DecodeRune (b :: rest)).1 % 16)],
        (Utf8.DecodeRune (b :: rest)).2, by rw [hstep, if_pos hls], rfl, by omega, hlen',
        by simp, fun more => ?_, fun more => ?_⟩
      · exact scanString_escapeU 0x32 0x30 0x32 _ more (by decide) (by decide) (by decide)
          (by rw [hexVal_hex _ (by omega)]; rfl)
      · rw [htake]
        have h := unquoteStep_escapeU 2 0 2 ((Utf8.DecodeRune (b :: rest)).1 % 16) more
          (by omega) (by omega) (by omega) (by omega)
          (by simp only [Utf8.IsSurrogate, decide_eq_false_iff_not]; omega)
        have hval : ((2 * 16 + 0) * 16 + 2) * 16 + (Utf8.DecodeRune (b :: rest)).1 % 16
            = (Utf8.DecodeRune (b :: rest)).1 := by omega
        rw [hval, henc] at h
        exact h
    · refine ⟨chunk, (Utf8.DecodeRune (b :: rest)).2, by rw [hstep, if_neg hls, htake], rfl,
        by omega, hlen', ?_, fun more => ?_, fun more => ?_⟩
      · intro h0
        rw [h0] at h2
        simp at h2
      · exact scanString_plain chunk more (fun x hx => by have := hge x hx; omega)
      · rw [htake]
        cases chunk with
        | nil => simp at h2
        | cons c cs =>
          have hc := hge c (List.mem_cons_self _ _)
          rw [List.cons_append, unquoteStep_multibyte c (cs ++ more) hc, ← List.cons_append,
            hdec more, henc, hlen]

/-- Skipping the bytes of the rune decoded last amounts to dropping them. -/
theorem validFrom_skip (skip : Nat) (p : List Nat) :
    Utf8.validFrom skip p = Utf8.validFrom 0 (p.drop skip) := by
  induction p generalizing skip with
  | nil => simp [Utf8.validFrom]
  | cons b rest ih =>
    cases skip with
    | zero => rfl
    | succ k => simp only [Utf8.validFrom, List.drop_succ_cons]; exact ih k

/-- A valid text starts with a rune that is no encoding error, and is valid after it. -/
theorem valid_cons (b : Nat) (rest : List Nat) (h : Utf8.validFrom 0 (b :: rest) = true) :
    ¬ ((Utf8.DecodeRune (b :: rest)).1 = Utf8.RuneError ∧ (Utf8.DecodeRune (b :: rest)).2 = 1)
    ∧ (1 ≤ (Utf8.DecodeRune (b :: rest)).2 →
        Utf8.validFrom 0 ((b :: rest).drop (Utf8.DecodeRune (b :: rest)).2) = true) := by
  simp only [Utf8.validFrom] at h
  by_cases hv : (Utf8.DecodeRune (b :: rest)).1 = Utf8.RuneError
      ∧ (Utf8.DecodeRune (b :: rest)).2 = 1
  · rw [if_pos hv] at h
    exact absurd h (by simp)
  · rw [if_neg hv, validFrom_skip] at h
    refine ⟨hv, fun h1 => ?_⟩
    obtain ⟨k, hk⟩ : ∃ k, (Utf8.DecodeRune (b :: rest)).2 = k + 1 :=
      ⟨_, (Nat.sub_add_cancel h1).symm⟩
    rw [hk] at h ⊢
    simpa using h

/-- The JSON string literal that `appendString` writes for a valid UTF-8 text is accepted by
the scanner up to its closing quote, and `unquoteBytes` decodes its inside to the text. -/
theorem appendStringFrom_roundtrip (n : Nat) (s : List Nat) (hn : s.length ≤ n)
    (hvalid : Utf8.validFrom 0 s = true) :
    (∀ tl, scanString .inString (appendStringFrom 0 s ++ 0x22 :: tl)
        = some (appendStringFrom 0 s, tl))
    ∧ unquoteFrom 0 (appendStringFrom 0 s) = some s := by
  induction n generalizing s with
  | zero =>
    have : s = [] := List.length_eq_zero.mp (by omega)
    subst this
    refine ⟨fun tl => ?_, rfl⟩
    show scanString .inString (0x22 :: tl) = _
    rw [scanString_inString, if_pos rfl]
    rfl
  | succ n ih =>
    cases s with
    | nil =>
      refine ⟨fun tl => ?_, rfl⟩
      show scanString .inString (0x22 :: tl) = _
      rw [scanString_inString, if_pos rfl]
      rfl
    | cons b rest =>
      obtain ⟨hv, hrest⟩ := valid_cons b rest hvalid
      obtain ⟨out, k, hstep, hk, hk1, hk2, hne, hscan, hunq⟩ := appendStringStep_spec b rest hv
      have hcons := appendStringFrom_cons b rest (by rw [hstep]; exact hk1)
      rw [hstep] at hcons
      simp only at hcons
      have hlt : ((b :: rest).drop k).length ≤ n := by
        rw [List.length_drop]
        simp only [List.length_cons] at hn ⊢
        omega
      obtain ⟨ih1, ih2⟩ := ih ((b :: rest).drop k) hlt (by rw [hk]; exact hrest (by omega))
      rw [hcons]
      constructor
      · intro tl
        rw [List.append_assoc, hscan, ih1 tl]
        rfl
      · rw [unquoteFrom_chunk out _ _ hne (hunq _), ih2]
        simp

end Json
namespace Json

/-- What the scanner returns is a split of its input at the closing quote. -/
theorem scanString_split (st : ScanState) (rest body tail : List Nat)
    (h : scanString st rest = some (body, tail)) : rest = body ++ 0x22 :: tail := by
  induction rest generalizing st body with
  | nil => simp [scanString] at h
  | cons c cs ih =>
    cases st with
    | inString =>
      rw [scanString_inString] at h
      by_cases h1 : c = 0x22
      · rw [if_pos h1] at h
        simp only [Option.some.injEq, Prod.mk.injEq] at h
        rw [← h.1, ← h.2, h1]
        rfl
      · rw [if_neg h1] at h
        by_cases h2 : c = 0x5C
        · rw [if_pos h2] at h
          obtain ⟨r, hr, hrb⟩ := Option.map_eq_some'.mp h
          simp only [Prod.mk.injEq] at hrb
          rw [← hrb.1, ih _ r.1 (by rw [hr, ← hrb.2])]
          rfl
        · rw [if_neg h2] at h
          by_cases h3 : c < 0x20
          · rw [if_pos h3] at h
            exact absurd h (by simp)
          · rw [if_neg h3] at h
            obtain ⟨r, hr, hrb⟩ := Option.map_eq_some'.mp h
            simp only [Prod.mk.injEq] at hrb
            rw [← hrb.1, ih _ r.1 (by rw [hr, ← hrb.2])]
            rfl
    | inStringEsc =>
      rw [scanString_inStringEsc] at h
      split_ifs at h
      · obtain ⟨r, hr, hrb⟩ := Option.map_eq_some'.mp h
        simp only [Prod.mk.injEq] at hrb
        rw [← hrb.1, ih _ r.1 (by rw [hr, ← hrb.2])]
        rfl
      · obtain ⟨r, hr, hrb⟩ := Option.map_eq_some'.mp h
        simp only [Prod.mk.injEq] at hrb
        rw [← hrb.1, ih _ r.1 (by rw [hr, ← hrb.2])]
        rfl
    | inStringEscU due =>
      rw [scanString_inStringEscU] at h
      split_ifs at h
      · obtain ⟨r, hr, hrb⟩ := Option.map_eq_some'.mp h
        simp only [Prod.mk.injEq] at hrb
        rw [← hrb.1, ih _ r.1 (by rw [hr, ← hrb.2])]
        rfl
      · obtain ⟨r, hr, hrb⟩ := Option.map_eq_some'.mp h
        simp only [Prod.mk.injEq] at hrb
        rw [← hrb.1, ih _ r.1 (by rw [hr, ← hrb.2])]
        rfl

/-- The scanner after a prefix it passes over. -/
theorem scanString_after (chunk more body tail : List Nat)
    (hpass : scanString .inString (chunk ++ more)
      = (scanString .inString more).map (fun r => (chunk ++ r.1, r.2)))
    (h : scanString .inString (chunk ++ more) = some (body, tail)) :
    ∃ body', body = chunk ++ body' ∧ scanString .inString more = some (body', tail) := by
  rw [hpass] at h
  obtain ⟨r, hr, hrb⟩ := Option.map_eq_some'.mp h
  simp only [Prod.mk.injEq] at hrb
  exact ⟨r.1, hrb.1.symm, by rw [hr, ← hrb.2]⟩

/-- What `getu4` reads is a backslash, a `u` and four hexadecimal digits. -/
theorem getu4_eq_some (s : List Nat) (v : Nat) (h : getu4 s = some v) :
    ∃ a b c d rest, s = 0x5C :: 0x75 :: a :: b :: c :: d :: rest
      ∧ (hexVal a).isSome = true ∧ (hexVal b).isSome = true
      ∧ (hexVal c).isSome = true ∧ (hexVal d).isSome = true := by
  match s, h with
  | p :: q :: a :: b :: c :: d :: rest, h =>
    simp only [getu4] at h
    by_cases hpq : p = 0x5C ∧ q = 0x75
    · rw [if_pos hpq] at h
      refine ⟨a, b, c, d, rest, by rw [hpq.1, hpq.2], ?_⟩
      cases ha : hexVal a <;> cases hb : hexVal b <;> cases hc : hexVal c <;>
        cases hd : hexVal d <;> simp [ha, hb, hc, hd] at h ⊢
    · rw [if_neg hpq] at h
      exact absurd h (by simp)
  | [], h => exact absurd h (by simp [getu4])
  | [_], h => exact absurd h (by simp [getu4])
  | [_, _], h => exact absurd h (by simp [getu4])
  | [_, _, _], h => exact absurd h (by simp [getu4])
  | [_, _, _, _], h => exact absurd h (by simp [getu4])
  | [_, _, _, _, _], h => exact absurd h (by simp [getu4])

end Json
namespace Json

/-- The function `unquoteBytes` decodes every two-character escape the scanner accepts. -/
theorem unquoteStep_escape_total (e : Nat) (more : List Nat)
    (h : e = 0x62 ∨ e = 0x66 ∨ e = 0x6E ∨ e = 0x72 ∨ e = 0x74 ∨ e = 0x5C ∨ e = 0x2F ∨ e = 0x22) :
    ∃ x, unquoteStep (0x5C :: e :: more) = some ([x], 2) := by
  rw [unquoteStep_backslash]
  by_cases h1 : e = 0x22 ∨ e = 0x5C ∨ e = 0x2F ∨ e = 0x27
  · exact ⟨e, if_pos h1⟩
  · rw [if_neg h1]
    by_cases h2 : e = 0x62
    · exact ⟨_, if_pos h2⟩
    · rw [if_neg h2]
      by_cases h3 : e = 0x66
      · exact ⟨_, if_pos h3⟩
      · rw [if_neg h3]
        by_cases h4 : e = 0x6E
        · exact ⟨_, if_pos h4⟩
        · rw [if_neg h4]
          by_cases h5 : e = 0x72
          · exact ⟨_, if_pos h5⟩
          · rw [if_neg h5]
            by_cases h6 : e = 0x74
            · exact ⟨_, if_pos h6⟩
            · exfalso
              omega

/-- The function `getu4` succeeds on a backslash, a `u` and four hexadecimal digits. -/
theorem getu4_isSome (a b c d : Nat) (more : List Nat)
    (ha : (hexVal a).isSome = true) (hb : (hexVal b).isSome = true)
    (hc : (hexVal c).isSome = true) (hd : (hexVal d).isSome = true) :
    ∃ rr, getu4 (0x5C :: 0x75 :: a :: b :: c :: d :: more) = some rr := by
  obtain ⟨va, hva⟩ := Option.isSome_iff_exists.mp ha
  obtain ⟨vb, hvb⟩ := Option.isSome_iff_exists.mp hb
  obtain ⟨vc, hvc⟩ := Option.isSome_iff_exists.mp hc
  obtain ⟨vd, hvd⟩ := Option.isSome_iff_exists.mp hd
  exact ⟨((va * 16 + vb) * 16 + vc) * 16 + vd, by simp [getu4, hva, hvb, hvc, hvd]⟩

/-- The function `unquoteBytes` decodes every `\u` escape the scanner accepts: it consumes the escape,
or the escape and a second one that completes a surrogate pair. -/
theorem unquoteStep_escapeU_total (a b c d : Nat) (more : List Nat)
    (ha : (hexVal a).isSome = true) (hb : (hexVal b).isSome = true)
    (hc : (hexVal c).isSome = true) (hd : (hexVal d).isSome = true) :
    (∃ out, unquoteStep (0x5C :: 0x75 :: a :: b :: c :: d :: more) = some (out, 6))
    ∨ (∃ out rr1, unquoteStep (0x5C :: 0x75 :: a :: b :: c :: d :: more) = some (out, 12)
        ∧ getu4 more = some rr1) := by
  obtain ⟨rr, hrr⟩ := getu4_isSome a b c d more ha hb hc hd
  rw [unquoteStep_backslash, if_neg (by omega), if_neg (by omega), if_neg (by omega),
    if_neg (by omega), if_neg (by omega), if_neg (by omega), if_pos rfl, hrr]
  simp only [List.drop_succ_cons, List.drop_zero]
  by_cases hs : Utf8.IsSurrogate rr = true
  · simp only [hs, if_true]
    cases h1 : getu4 more with
    | none => exact Or.inl ⟨_, rfl⟩
    | some rr1 =>
      simp only
      by_cases hp : Utf8.DecodeSurrogates rr rr1 ≠ 0xFFFD
      · rw [if_pos hp]
        exact Or.inr ⟨_, rr1, rfl, rfl⟩
      · rw [if_neg hp]
        exact Or.inl ⟨_, rfl⟩
  · simp only [hs]
    exact Or.inl ⟨_, rfl⟩

/-- The scanner inside a `\u` escape: a hexadecimal digit follows. -/
theorem scanString_inStringEscU_inv (due : Nat) (cs r1 tail : List Nat)
    (h : scanString (.inStringEscU due) cs = some (r1, tail)) :
    ∃ a cs' r', cs = a :: cs' ∧ r1 = a :: r' ∧ (hexVal a).isSome = true
      ∧ scanString (if due ≤ 1 then .inString else .inStringEscU (due - 1)) cs'
          = some (r', tail) := by
  cases cs with
  | nil => exact absurd h (by simp [scanString])
  | cons a cs' =>
    rw [scanString_inStringEscU] at h
    by_cases ha : (hexVal a).isSome = true
    · rw [if_pos ha] at h
      obtain ⟨r, hr, hrb⟩ := Option.map_eq_some'.mp h
      simp only [Prod.mk.injEq] at hrb
      exact ⟨a, cs', r.1, rfl, hrb.1.symm, ha, by rw [hr, ← hrb.2]⟩
    · rw [if_neg ha] at h
      exact absurd h (by simp)

/-- The scanner inside a `\u` escape: four hexadecimal digits follow. -/
theorem scanString_inStringEscU_four (cs r1 tail : List Nat)
    (h : scanString (.inStringEscU 4) cs = some (r1, tail)) :
    ∃ a b c d cs' body', cs = a :: b :: c :: d :: cs' ∧ r1 = a :: b :: c :: d :: body'
      ∧ (hexVal a).isSome = true ∧ (hexVal b).isSome = true
      ∧ (hexVal c).isSome = true ∧ (hexVal d).isSome = true
      ∧ scanString .inString cs' = some (body', tail) := by
  obtain ⟨a, cs1, r1', rfl, rfl, ha, h1⟩ := scanString_inStringEscU_inv 4 cs r1 tail h
  simp only [Nat.reduceLeDiff, if_false, Nat.reduceSub] at h1
  obtain ⟨b, cs2, r2', rfl, rfl, hb, h2⟩ := scanString_inStringEscU_inv 3 cs1 r1' tail h1
  simp only [Nat.reduceLeDiff, if_false, Nat.reduceSub] at h2
  obtain ⟨c, cs3, r3', rfl, rfl, hc, h3⟩ := scanString_inStringEscU_inv 2 cs2 r2' tail h2
  simp only [Nat.reduceLeDiff, if_false, Nat.reduceSub] at h3
  obtain ⟨d, cs4, r4', rfl, rfl, hd, h4⟩ := scanString_inStringEscU_inv 1 cs3 r3' tail h3
  simp only [Nat.le_refl, if_true] at h4
  exact ⟨a, b, c, d, cs4, r4', rfl, rfl, ha, hb, hc, hd, h4⟩

end Json
namespace Json

/-- The function `unquoteBytes` decodes the inside of every string literal the scanner accepts. -/
theorem unquoteFrom_of_scanString (n : Nat) (rest body tail : List Nat)
    (hn : rest.length ≤ n) (h : scanString .inString rest = some (body, tail)) :
    ∃ text, unquoteFrom 0 body = some text := by
  induction n generalizing rest body with
  | zero =>
    have : rest = [] := List.length_eq_zero.mp (by omega)
    subst this
    exact absurd h (by simp [scanString])
  | succ n ih =>
    cases rest with
    | nil => exact absurd h (by simp [scanString])
    | cons c cs =>
      have hsplit := scanString_split _ _ _ _ h
      simp only [List.length_cons] at hn
      have h0 := h
      rw [scanString_inString] at h
      by_cases h1 : c = 0x22
      · rw [if_pos h1] at h
        simp only [Option.some.injEq, Prod.mk.injEq] at h
        rw [← h.1]
        exact ⟨[], rfl⟩
      · rw [if_neg h1] at h
        by_cases h2 : c = 0x5C
        · rw [if_pos h2] at h
          obtain ⟨r, hr, hrb⟩ := Option.map_eq_some'.mp h
          simp only [Prod.mk.injEq] at hrb
          cases cs with
          | nil => exact absurd hr (by simp [scanString])
          | cons e cs' =>
            simp only [List.length_cons] at hn
            rw [scanString_inStringEsc] at hr
            by_cases he : e = 0x62 ∨ e = 0x66 ∨ e = 0x6E ∨ e = 0x72 ∨ e = 0x74 ∨ e = 0x5C
                ∨ e = 0x2F ∨ e = 0x22
            · rw [if_pos he] at hr
              obtain ⟨r', hr', hrb'⟩ := Option.map_eq_some'.mp hr
              have ht : r'.2 = tail := by rw [← hrb.2, ← hrb']
              obtain ⟨text, htext⟩ := ih cs' r'.1 (by omega) (by rw [hr', ← ht])
              obtain ⟨x, hx⟩ := unquoteStep_escape_total e r'.1 he
              refine ⟨[x] ++ text, ?_⟩
              rw [← hrb.1, ← hrb', h2]
              have := unquoteFrom_chunk [0x5C, e] r'.1 [x] (by simp) hx
              simp only [List.cons_append, List.nil_append] at this
              rw [this, htext]
              rfl
            · rw [if_neg he] at hr
              by_cases hu : e = 0x75
              · rw [if_pos hu] at hr
                obtain ⟨r', hr', hrb'⟩ := Option.map_eq_some'.mp hr
                obtain ⟨a, b, c', d, cs'', body', hcs, hr1, ha, hb, hc, hd, hscan⟩ :=
                  scanString_inStringEscU_four cs' r'.1 r'.2 (by rw [hr'])
                have hbody : body = 0x5C :: 0x75 :: a :: b :: c' :: d :: body' := by
                  rw [← hrb.1, ← hrb', h2, hu, hr1]
                have htail : r'.2 = tail := by rw [← hrb.2, ← hrb']
                rw [htail] at hscan
                have hlen : cs''.length + 4 = cs'.length := by rw [hcs]; simp
                rcases unquoteStep_escapeU_total a b c' d body' ha hb hc hd with
                  ⟨out, hout⟩ | ⟨out, rr1, hout, hrr1⟩
                · obtain ⟨text, htext⟩ := ih cs'' body' (by omega) hscan
                  refine ⟨out ++ text, ?_⟩
                  have := unquoteFrom_chunk [0x5C, 0x75, a, b, c', d] body' out (by simp) hout
                  simp only [List.cons_append, List.nil_append] at this
                  rw [hbody, this, htext]
                  rfl
                · obtain ⟨a2, b2, c2, d2, body2, hb2, ha2, hbb2, hc2, hd2⟩ :=
                    getu4_eq_some body' rr1 hrr1
                  have hsplit2 := scanString_split _ _ _ _ hscan
                  rw [hb2] at hsplit2
                  simp only [List.cons_append] at hsplit2
                  rw [hsplit2, hb2] at hscan
                  have hpass := scanString_escapeU a2 b2 c2 d2 (body2 ++ 0x22 :: tail)
                    ha2 hbb2 hc2 hd2
                  obtain ⟨body3, hb3, hscan3⟩ := scanString_after [0x5C, 0x75, a2, b2, c2, d2]
                    (body2 ++ 0x22 :: tail) _ tail hpass hscan
                  have hb3' : body2 = body3 := by simpa using hb3
                  rw [← hb3'] at hscan3
                  obtain ⟨text, htext⟩ := ih (body2 ++ 0x22 :: tail) body2 (by
                    have : cs''.length = (body2 ++ 0x22 :: tail).length + 6 := by
                      rw [hsplit2]; simp
                    omega) hscan3
                  refine ⟨out ++ text, ?_⟩
                  have := unquoteFrom_chunk
                    [0x5C, 0x75, a, b, c', d, 0x5C, 0x75, a2, b2, c2, d2] body2 out (by simp)
                    (by rw [hb2] at hout; exact hout)
                  simp only [List.cons_append, List.nil_append] at this
                  rw [hbody, hb2, this, htext]
                  rfl
              · rw [if_neg hu] at hr
                exact absurd hr (by simp)
        · rw [if_neg h2] at h
          by_cases h3 : c < 0x20
          · rw [if_pos h3] at h
            exact absurd h (by simp)
          · rw [if_neg h3] at h
            obtain ⟨r, hr, hrb⟩ := Option.map_eq_some'.mp h
            simp only [Prod.mk.injEq] at hrb
            have hscan : scanString .inString cs = some (r.1, tail) := by rw [hr, ← hrb.2]
            by_cases h4 : c < 0x80
            · obtain ⟨text, htext⟩ := ih cs r.1 (by omega) hscan
              refine ⟨[c] ++ text, ?_⟩
              have := unquoteFrom_chunk [c] r.1 [c] (by simp)
                (unquoteStep_plain c r.1 h2 (by omega) h4)
              simp only [List.cons_append, List.nil_append] at this
              rw [← hrb.1, this, htext]
              rfl
            · by_cases hv : (Utf8.DecodeRune (c :: r.1)).1 = Utf8.RuneError
                  ∧ (Utf8.DecodeRune (c :: r.1)).2 = 1
              · obtain ⟨text, htext⟩ := ih cs r.1 (by omega) hscan
                refine ⟨Utf8.EncodeRune (Utf8.DecodeRune (c :: r.1)).1 ++ text, ?_⟩
                have := unquoteFrom_chunk [c] r.1 _ (by simp)
                  (by rw [List.singleton_append, unquoteStep_multibyte c r.1 (by omega), hv.2]; rfl)
                simp only [List.cons_append, List.nil_append] at this
                rw [← hrb.1, this, htext]
                rfl
              · obtain ⟨chunk, t', hsp, hlen, henc, hge, hdec, h2len⟩ :=
                  Utf8.DecodeRune_multibyte c r.1 (by omega) hv
                have hrest : c :: cs = chunk ++ (t' ++ 0x22 :: tail) := by
                  rw [hsplit, ← hrb.1, hsp, List.append_assoc]
                have hpass := scanString_plain chunk (t' ++ 0x22 :: tail)
                  (fun x hx => by have := hge x hx; omega)
                rw [hrest] at h0
                obtain ⟨body3, hb3, hscan3⟩ := scanString_after chunk _ _ tail hpass h0
                have hb3' : t' = body3 := by
                  rw [← hrb.1, hsp] at hb3
                  exact List.append_cancel_left hb3
                rw [← hb3'] at hscan3
                obtain ⟨text, htext⟩ := ih (t' ++ 0x22 :: tail) t' (by
                  have : (c :: cs).length = chunk.length + (t' ++ 0x22 :: tail).length := by
                    rw [hrest]; simp
                  simp only [List.length_cons] at this
                  omega) hscan3
                refine ⟨chunk ++ text, ?_⟩
                have hstep : unquoteStep (chunk ++ t') = some (chunk, chunk.length) := by
                  rw [← hsp, unquoteStep_multibyte c r.1 (by omega), henc, hlen]
                rw [← hrb.1, hsp, unquoteFrom_chunk chunk t' chunk
                  (by intro h0'; rw [h0'] at h2len; simp at h2len) hstep, htext]
                rfl

end Json
namespace Json

/-- An input whose first byte is neither white space nor `n` is not the literal `null`. -/
theorem nullLiteral_cons (c : Nat) (rest : List Nat) (hs : isSpace c = false) (hn : c ≠ 0x6E) :
    nullLiteral (c :: rest) = false := by
  unfold nullLiteral
  rw [List.dropWhile_cons_of_neg (by simp [hs])]
  match rest with
  | [] => rfl
  | [_] => rfl
  | [_, _] => rfl
  | _ :: _ :: _ :: _ => simp [hn]

/-- Leading white space does not matter to `nullLiteral`. -/
theorem nullLiteral_dropWhile (data : List Nat) :
    nullLiteral (data.dropWhile isSpace) = nullLiteral data := by
  unfold nullLiteral
  rw [List.dropWhile_idempotent]

/-- A string literal starts, after white space, with a quote: its first byte is not `n`,
and it is not the literal `null`. -/
theorem stringLiteral_head (data body : List Nat) (h : stringLiteral data = some body) :
    data.head? ≠ some 0x6E ∧ nullLiteral data = false := by
  unfold stringLiteral at h
  cases hd : data.dropWhile isSpace with
  | nil => rw [hd] at h; exact absurd h (by simp)
  | cons c rest =>
    rw [hd] at h
    simp only at h
    by_cases hc : c = 0x22
    · constructor
      · cases data with
        | nil => simp
        | cons d ds =>
          simp only [List.head?_cons, ne_eq, Option.some.injEq]
          intro hdn
          rw [hdn, List.dropWhile_cons_of_neg (by decide)] at hd
          simp only [List.cons.injEq] at hd
          omega
      · rw [← nullLiteral_dropWhile, hd]
        exact nullLiteral_cons c rest (by rw [hc]; decide) (by omega)
    · rw [if_neg hc] at h
      exact absurd h (by simp)

/-- The function `json.Unmarshal` into a string unquotes a string literal and returns no error. -/
theorem Unmarshal_stringLiteral (data body : List Nat) (h : stringLiteral data = some body) :
    ∃ text, unquote body = some text ∧ ∀ target, Unmarshal data target = (text, none) := by
  have hnull := (stringLiteral_head data body h).2
  have hscan : ∃ rest tail, scanString .inString rest = some (body, tail) := by
    unfold stringLiteral at h
    cases hd : data.dropWhile isSpace with
    | nil => rw [hd] at h; exact absurd h (by simp)
    | cons c rest =>
      rw [hd] at h
      simp only at h
      by_cases hc : c = 0x22
      · rw [if_pos hc] at h
        cases hs : scanString .inString rest with
        | none => rw [hs] at h; exact absurd h (by simp)
        | some r =>
          rw [hs] at h
          simp only at h
          by_cases ht : r.2.all isSpace = true
          · rw [if_pos ht] at h
            exact ⟨rest, r.2, by rw [hs, ← Option.some.inj h]⟩
          · rw [if_neg ht] at h
            exact absurd h (by simp)
      · rw [if_neg hc] at h
        exact absurd h (by simp)
  obtain ⟨rest, tail, hscan⟩ := hscan
  obtain ⟨text, htext⟩ := unquoteFrom_of_scanString rest.length rest body tail (le_refl _) hscan
  refine ⟨text, htext, fun target => ?_⟩
  unfold Unmarshal
  rw [hnull, h]
  simp only [Bool.false_eq_true, if_false]
  have htext' : unquote body = some text := htext
  rw [htext']

/-- The function `json.Unmarshal` into a string reads back what `appendString` wrote for a valid UTF-8
text. -/
theorem Unmarshal_appendString (s target : List Nat) (hvalid : Utf8.Valid s = true) :
    Unmarshal (appendString s) target = (s, none) := by
  obtain ⟨hscan, hunq⟩ := appendStringFrom_roundtrip s.length s (le_refl _) hvalid
  have hlit : stringLiteral (appendString s) = some (appendStringFrom 0 s) := by
    unfold stringLiteral appendString
    rw [List.dropWhile_cons_of_neg (by decide)]
    simp only [if_true, hscan []]
    rfl
  obtain ⟨text, htext, hun⟩ := Unmarshal_stringLiteral _ _ hlit
  rw [hun target]
  have : unquote (appendStringFrom 0 s) = some s := hunq
  rw [this] at htext
  rw [Option.some.inj htext]

/-- The function `json.Unmarshal` into a string returns no error exactly for the literal
`null` and for a string literal (white space around them allowed). -/
theorem Unmarshal_eq_none_iff (data target : List Nat) :
    (Unmarshal data target).2 = none
      ↔ (nullLiteral data = true ∨ ∃ body, stringLiteral data = some body) := by
  by_cases hn : nullLiteral data = true
  · unfold Unmarshal
    rw [if_pos hn]
    exact ⟨fun _ => Or.inl hn, fun _ => rfl⟩
  · cases hs : stringLiteral data with
    | some body =>
      obtain ⟨text, _, hun⟩ := Unmarshal_stringLiteral data body hs
      rw [hun target]
      exact ⟨fun _ => Or.inr ⟨body, rfl⟩, fun _ => rfl⟩
    | none =>
      unfold Unmarshal
      rw [if_neg hn, hs]
      constructor
      · intro h
        exact absurd h (by simp)
      · rintro (h | ⟨body, h⟩)
        · exact absurd h hn
        · exact absurd h (by simp)

end Json

namespace Types

/-! ## Theorems: the JSON bridge of `types.String` -/

/-- The check `bytes.HasPrefix(data, []byte{'n'})` looks at the first byte only. -/
theorem HasPrefix_n (data : List Nat) :
    HasPrefix data [0x6E] = true ↔ data.head? = some 0x6E := by
  cases data with
  | nil => simp [HasPrefix, List.isPrefixOf]
  | cons d ds =>
    simp only [HasPrefix, List.isPrefixOf, Bool.and_true, beq_iff_eq, List.head?_cons,
      Option.some.injEq]
    exact eq_comm

/-- An input that starts with `n` is ignored. -/
theorem UnmarshalJSON_n (s : Types.String) (data : List Nat) (h : data.head? = some 0x6E) :
    s.UnmarshalJSON data = (s, none) := by
  unfold String.UnmarshalJSON
  rw [if_pos ((HasPrefix_n data).mpr h)]

/-- An input that does not start with `n` is handed to `json.Unmarshal`; `Valid` is set
when that returns no error. -/
theorem UnmarshalJSON_not_n (s : Types.String) (data : List Nat) (h : data.head? ≠ some 0x6E) :
    s.UnmarshalJSON data
      = match Json.Unmarshal data s.String with
        | (text, none) => ({ String := text, Valid := true }, none)
        | (text, some err) => ({ s with String := text }, some err) := by
  unfold String.UnmarshalJSON
  rw [if_neg (fun hp => h ((HasPrefix_n data).mp hp))]

/-- C6 (counterexample). A receiver that holds the valid string "x" is left as it is by
`UnmarshalJSON` of the JSON text `null`: no error, and `Valid` is still true, not false. -/
theorem UnmarshalJSON_null_keeps_valid :
    String.UnmarshalJSON ⟨Json.ascii "x", true⟩ (Json.ascii "null")
      = (⟨Json.ascii "x", true⟩, none)
    ∧ (String.UnmarshalJSON ⟨Json.ascii "x", true⟩ (Json.ascii "null")).1.Valid ≠ false := by
  decide

/-- C6 (as amended). For every receiver, `UnmarshalJSON` of the JSON text `null` returns no
error and leaves the receiver exactly as it was (SQL NULL if it was so before); and
`UnmarshalJSON` of any JSON string literal, the empty string `""` included, returns no
error and leaves the receiver with `Valid = true` and `String` equal to the decoded text. -/
theorem UnmarshalJSON_null_or_string (s : Types.String) (data body : List Nat)
    (hlit : Json.stringLiteral data = some body) :
    s.UnmarshalJSON (Json.ascii "null") = (s, none)
    ∧ (s.Valid = false → (s.UnmarshalJSON (Json.ascii "null")).1.Valid = false)
    ∧ (∃ text, Json.unquote body = some text
        ∧ s.UnmarshalJSON data = ({ String := text, Valid := true }, none))
    ∧ s.UnmarshalJSON (Json.ascii "\"\"") = ({ String := [], Valid := true }, none) := by
  have hnull : s.UnmarshalJSON (Json.ascii "null") = (s, none) := UnmarshalJSON_n s _ rfl
  refine ⟨hnull, fun h => by rw [hnull]; exact h, ?_, ?_⟩
  · obtain ⟨text, htext, hun⟩ := Json.Unmarshal_stringLiteral data body hlit
    refine ⟨text, htext, ?_⟩
    rw [UnmarshalJSON_not_n s data (Json.stringLiteral_head data body hlit).1, hun]
  · have hlit' : Json.stringLiteral (Json.ascii "\"\"") = some [] := by decide
    obtain ⟨text, htext, hun⟩ := Json.Unmarshal_stringLiteral _ _ hlit'
    have : text = [] := by
      have h0 : Json.unquote [] = some [] := rfl
      rw [h0] at htext
      exact (Option.some.inj htext).symm
    rw [UnmarshalJSON_not_n s _ (Json.stringLiteral_head _ _ hlit').1, hun, this]

/-- Witness of C6 (as amended): the literal `"café"` with white space around it, on a
receiver that held "old". -/
theorem UnmarshalJSON_null_or_string_witness :
    Json.stringLiteral (Json.ascii " \"caf\\u00e9\"\n") = some (Json.ascii "caf\\u00e9")
    ∧ (String.UnmarshalJSON ⟨Json.ascii "old", true⟩ (Json.ascii "null")
        = (⟨Json.ascii "old", true⟩, none)
      ∧ (true = false →
          (String.UnmarshalJSON ⟨Json.ascii "old", true⟩ (Json.ascii "null")).1.Valid = false)
      ∧ (∃ text, Json.unquote (Json.ascii "caf\\u00e9") = some text
          ∧ String.UnmarshalJSON ⟨Json.ascii "old", true⟩ (Json.ascii " \"caf\\u00e9\"\n")
            = ({ String := text, Valid := true }, none))
      ∧ String.UnmarshalJSON ⟨Json.ascii "old", true⟩ (Json.ascii "\"\"")
          = ({ String := [], Valid := true }, none)) :=
  ⟨by decide,
   UnmarshalJSON_null_or_string ⟨Json.ascii "old", true⟩ (Json.ascii " \"caf\\u00e9\"\n")
    (Json.ascii "caf\\u00e9") (by decide)⟩

/-- C9. JSON round trip of `types.String`: for every `s` with `Valid = true` whose text is
valid UTF-8, `MarshalJSON` returns no error and `UnmarshalJSON` of its output on a
zero-valued `String` returns no error and yields `s`; for every `s` with `Valid = false`,
`MarshalJSON` gives exactly `null`, whatever the `String` field holds, and `UnmarshalJSON` of
that output on a zero-valued `String` yields `Valid = false`. -/
theorem String_json_roundtrip (s : Types.String)
    (hutf : s.Valid = true → Utf8.Valid s.String = true) :
    (s.Valid = true →
      s.MarshalJSON.2 = none
      ∧ String.UnmarshalJSON ⟨[], false⟩ s.MarshalJSON.1 = (s, none))
    ∧ (s.Valid = false →
      s.MarshalJSON = (Json.ascii "null", none)
      ∧ String.UnmarshalJSON ⟨[], false⟩ s.MarshalJSON.1 = (⟨[], false⟩, none)
      ∧ (String.UnmarshalJSON ⟨[], false⟩ s.MarshalJSON.1).1.Valid = false) := by
  obtain ⟨str, valid⟩ := s
  constructor
  · intro hv
    simp only at hv
    subst hv
    have hm : String.MarshalJSON ⟨str, true⟩ = (Json.appendString str, none) := rfl
    rw [hm]
    refine ⟨rfl, ?_⟩
    have hhead : (Json.appendString str).head? ≠ some 0x6E := by
      simp [Json.appendString]
    rw [UnmarshalJSON_not_n _ _ hhead, Json.Unmarshal_appendString str [] (hutf rfl)]
  · intro hv
    simp only at hv
    subst hv
    have hm : String.MarshalJSON ⟨str, false⟩ = (Json.ascii "null", none) := rfl
    rw [hm]
    exact ⟨rfl, by decide, by decide⟩

/-- Witness of C9: the valid string whose text is `null`, and with it the empty string and a
text with an accent, a quote, a line break, `<` and U+2028. -/
theorem String_json_roundtrip_witness :
    (Utf8.Valid (Json.ascii "null") = true
      ∧ (String.MarshalJSON ⟨Json.ascii "null", true⟩).1 = Json.ascii "\"null\""
      ∧ (String.MarshalJSON ⟨[], true⟩).1 = Json.ascii "\"\""
      ∧ String.UnmarshalJSON ⟨[], false⟩ (String.MarshalJSON ⟨[], true⟩).1 = (⟨[], true⟩, none)
      ∧ String.UnmarshalJSON ⟨[], false⟩
          (String.MarshalJSON ⟨[0x63, 0xC3, 0xA9, 0x22, 0x0A, 0x3C, 0xE2, 0x80, 0xA8], true⟩).1
          = (⟨[0x63, 0xC3, 0xA9, 0x22, 0x0A, 0x3C, 0xE2, 0x80, 0xA8], true⟩, none))
    ∧ ((true = true →
        (String.MarshalJSON ⟨Json.ascii "null", true⟩).2 = none
        ∧ String.UnmarshalJSON ⟨[], false⟩ (String.MarshalJSON ⟨Json.ascii "null", true⟩).1
            = (⟨Json.ascii "null", true⟩, none))
      ∧ (true = false →
        String.MarshalJSON ⟨Json.ascii "null", true⟩ = (Json.ascii "null", none)
        ∧ String.UnmarshalJSON ⟨[], false⟩ (String.MarshalJSON ⟨Json.ascii "null", true⟩).1
            = (⟨[], false⟩, none)
        ∧ (String.UnmarshalJSON ⟨[], false⟩
            (String.MarshalJSON ⟨Json.ascii "null", true⟩).1).1.Valid = false)) :=
  ⟨by decide, String_json_roundtrip ⟨Json.ascii "null", true⟩ (fun _ => by decide)⟩

/-- C10 (counterexample). The input ` null`, a blank and then `null`, does not start with
`n` and is no JSON string literal, so that no string is decoded from it; yet `UnmarshalJSON`
returns no error and sets `Valid` of a NULL receiver to true, with the text still empty:
`Valid` is set to true although decoding the input as a JSON string has not succeeded. -/
theorem UnmarshalJSON_spaced_null_sets_valid :
    (Json.ascii " null").head? ≠ some 0x6E
    ∧ Json.stringLiteral (Json.ascii " null") = none
    ∧ String.UnmarshalJSON ⟨[], false⟩ (Json.ascii " null") = (⟨[], true⟩, none)
    ∧ ¬ ((String.UnmarshalJSON ⟨[], false⟩ (Json.ascii " null")).1.Valid = true
          ↔ ∃ body, Json.stringLiteral (Json.ascii " null") = some body) := by
  have hlit : Json.stringLiteral (Json.ascii " null") = none := by decide
  refine ⟨by decide, hlit, by decide, fun h => ?_⟩
  obtain ⟨body, hbody⟩ := h.mp (by decide)
  rw [hlit] at hbody
  exact absurd hbody (by simp)

/-- C10 (as amended). For every input whose first byte is `n` (`null`, but also `n`, `nul`
or `nope`), `UnmarshalJSON` returns no error and leaves the receiver's `String` and `Valid`
exactly as they were; for every input that does not start with `n` it returns what
`json.Unmarshal` into the `String` field returns, `Valid` is set to true exactly when that
is no error, and `Valid` is left as it was when an error is returned.  That call returns no
error exactly for a string literal and for `null`, white space around them allowed: for
`null` after white space the receiver ends with its old text and `Valid = true`, for a
string literal with the decoded text and `Valid = true`, and for any other input that does
not start with `n` an error is returned and the receiver is left exactly as it was. -/
theorem UnmarshalJSON_first_byte (s : Types.String) (data : List Nat) :
    (data.head? = some 0x6E → s.UnmarshalJSON data = (s, none))
    ∧ (data.head? ≠ some 0x6E →
        (s.UnmarshalJSON data).2 = (Json.Unmarshal data s.String).2
        ∧ ((Json.Unmarshal data s.String).2 = none → (s.UnmarshalJSON data).1.Valid = true)
        ∧ ((Json.Unmarshal data s.String).2 ≠ none →
            (s.UnmarshalJSON data).1.Valid = s.Valid))
    ∧ ((Json.Unmarshal data s.String).2 = none
        ↔ (Json.nullLiteral data = true ∨ ∃ body, Json.stringLiteral data = some body))
    ∧ s.UnmarshalJSON (Json.ascii "null") = (s, none)
    ∧ s.UnmarshalJSON (Json.ascii "n") = (s, none)
    ∧ s.UnmarshalJSON (Json.ascii "nul") = (s, none)
    ∧ s.UnmarshalJSON (Json.ascii "nope") = (s, none)
    ∧ (data.head? ≠ some 0x6E → Json.nullLiteral data = true →
        s.UnmarshalJSON data = ({ String := s.String, Valid := true }, none))
    ∧ (∀ body, Json.stringLiteral data = some body →
        data.head? ≠ some 0x6E
        ∧ ∃ text, Json.unquote body = some text
          ∧ s.UnmarshalJSON data = ({ String := text, Valid := true }, none))
    ∧ (data.head? ≠ some 0x6E → Json.nullLiteral data = false →
        Json.stringLiteral data = none →
        ∃ err, s.UnmarshalJSON data = (s, some err)) := by
  refine ⟨UnmarshalJSON_n s data, fun h => ?_, Json.Unmarshal_eq_none_iff data s.String,
    UnmarshalJSON_n s _ rfl, UnmarshalJSON_n s _ rfl, UnmarshalJSON_n s _ rfl,
    UnmarshalJSON_n s _ rfl, fun h hnull => ?_, fun body hlit => ?_, fun h hnull hlit => ?_⟩
  · rw [UnmarshalJSON_not_n s data h]
    cases hu : Json.Unmarshal data s.String with
    | mk text err =>
      cases err with
      | none => exact ⟨rfl, fun _ => rfl, fun hne => absurd rfl hne⟩
      | some e => exact ⟨rfl, fun hne => absurd hne (by simp), fun _ => rfl⟩
  · have hu : Json.Unmarshal data s.String = (s.String, none) := by
      unfold Json.Unmarshal
      rw [if_pos hnull]
    rw [UnmarshalJSON_not_n s data h, hu]
  · obtain ⟨text, htext, hun⟩ := Json.Unmarshal_stringLiteral data body hlit
    refine ⟨(Json.stringLiteral_head data body hlit).1, text, htext, ?_⟩
    rw [UnmarshalJSON_not_n s data (Json.stringLiteral_head data body hlit).1, hun]
  · have hu : Json.Unmarshal data s.String
        = (s.String, some "json: cannot unmarshal into Go value of type string") := by
      unfold Json.Unmarshal
      rw [if_neg (by simp [hnull]), hlit]
    exact ⟨"json: cannot unmarshal into Go value of type string", by
      rw [UnmarshalJSON_not_n s data h, hu]⟩

end Types

